import Mathlib

/-!
Shallow embedding of the generic proxy-pattern pool of
`src/proxy/ProxyPatternPool.py` (class `Pool` and the pooled part of
class `Proxy`), together with its state invariants and theorems about
the behavioural claims.

Python objects handed out by the pool are identified by their creation
sequence number (the argument the pool passes to the user factory
`fun`), timestamps are integers, Python `set`s are duplicate-free
lists, and the `self._uses` dict is an association list.  The bounded
semaphore is the count of free tokens (`some v` iff `max_size > 0`).
Hooks are opaque to the pool; a hook is modelled by whether it raises
on a given object.  Creation failures of the user factory are modelled
by a predicate `okf` on the creation sequence number.
-/

namespace PPP

/-- Per-object bookkeeping, mirroring `Pool.UseInfo`: the number of
successful acquisitions and the last get/ret timestamps. -/
structure UseInfo where
  uses : Nat
  last_get : Int
  last_ret : Int
deriving DecidableEq

/-- Pool configuration fields used by the embedded operations
(`Pool.__init__` parameters). -/
structure PoolConfig where
  max_size : Nat
  min_size : Nat
  timeout : Option Int
  max_use : Nat
  max_avail_delay : Int
  max_using_delay : Int
  max_using_delay_kill : Int
deriving DecidableEq

/-- Pool state: the three membership sets, the `_uses` table, the
statistics counters touched by the embedded operations, and the free
tokens of the bounded semaphore (present iff `max_size > 0`). -/
structure PoolState where
  avail : List Nat
  used : List Nat
  todel : List Nat
  uses : List (Nat × UseInfo)
  nobjs : Nat
  ncreated : Nat
  ncreating : Nat
  ndestroys : Nat
  nuses : Nat
  nkilled : Nat
  nrecycled : Nat
  nwornout : Nat
  nborrows : Nat
  nreturns : Nat
  nhealth : Nat
  bad_health : Nat
  hc_errors : Nat
  hk_rounds : Nat
  hc_rounds : Nat
  semTokens : Option Nat
deriving DecidableEq

/-- Errors surfaced by pool operations: `timeout` is the `TimeOut`
exception raised when no capacity token can be obtained, `creation` is
a failure of the user factory propagating out of `get`, `hookErr` is a
hook exception that escaped (only possible where the source has no
`try`/`except`), and `keyErr` models popping an empty set. -/
inductive PoolErr where
  | timeout
  | creation
  | hookErr
  | keyErr
deriving DecidableEq

/-- Lifecycle hooks (`opener`, `getter`, `retter`, `closer`); `some f`
is an installed hook and `f o = true` means it raises on object `o`. -/
structure Hooks where
  opener : Option (Nat → Bool)
  getter : Option (Nat → Bool)
  retter : Option (Nat → Bool)
  closer : Option (Nat → Bool)

/-- Whether an optional hook raises on an object. -/
def hookRaises (h : Option (Nat → Bool)) (o : Nat) : Bool :=
  match h with
  | none => false
  | some f => f o

/-- A bare hook invocation: an error if the hook raises. -/
def hookRun (h : Option (Nat → Bool)) (o : Nat) : Except PoolErr Unit :=
  if hookRaises h o then Except.error PoolErr.hookErr else Except.ok ()

/-- Model of the source's `try: hook(obj) except Exception as e:
log.error(...)` pattern: the hook error is swallowed. -/
def hookCaught (h : Option (Nat → Bool)) (o : Nat) : Except PoolErr Unit :=
  match hookRun h o with
  | Except.error _ => Except.ok ()
  | Except.ok _ => Except.ok ()

/-- Lookup in the `_uses` association list. -/
def lookupU : List (Nat × UseInfo) → Nat → Option UseInfo
  | [], _ => none
  | p :: l, o => if p.1 = o then some p.2 else lookupU l o

/-- The `self._uses[obj]` access (total, with a junk default; the pool
invariant keeps all actual accesses inside the table's domain). -/
def getU (l : List (Nat × UseInfo)) (o : Nat) : UseInfo :=
  (lookupU l o).getD ⟨0, 0, 0⟩

/-- Pointwise update of one key of the `_uses` table. -/
def updU : List (Nat × UseInfo) → Nat → (UseInfo → UseInfo) → List (Nat × UseInfo)
  | [], _, _ => []
  | p :: l, o, f => (if p.1 = o then (p.1, f p.2) else p) :: updU l o f

/-- Deletion of one key of the `_uses` table (`del self._uses[obj]`). -/
def delU : List (Nat × UseInfo) → Nat → List (Nat × UseInfo)
  | [], _ => []
  | p :: l, o => if p.1 = o then delU l o else p :: delU l o

/-- `Pool._out`: forget an object (drop it from `_uses`, `_avail` and
`_using`, and decrement `_nobjs` if it was tracked anywhere). -/
def Out (st : PoolState) (o : Nat) : PoolState :=
  { st with
    uses := delU st.uses o
    avail := st.avail.erase o
    used := st.used.erase o
    nobjs :=
      if (lookupU st.uses o).isSome ∨ o ∈ st.avail ∨ o ∈ st.used then st.nobjs - 1
      else st.nobjs }

/-- `self._todel.add(obj)` (Python set add: no duplicates). -/
def todelAdd (st : PoolState) (o : Nat) : PoolState :=
  { st with todel := if o ∈ st.todel then st.todel else o :: st.todel }

/-- `Pool._create`: bump `_ncreating`, call the factory on the current
`_ncreated` (which may fail, per `okf`), then register the object. -/
def _create (st : PoolState) (now : Int) (okf : Nat → Bool) :
    PoolState × Except PoolErr Nat :=
  let st1 := { st with ncreating := st.ncreating + 1 }
  if okf st1.ncreated then
    let o := st1.ncreated
    ({ st1 with
        ncreated := st1.ncreated + 1
        nobjs := st1.nobjs + 1
        uses := (o, ⟨0, now, now⟩) :: st1.uses }, Except.ok o)
  else (st1, Except.error PoolErr.creation)

/-- `Pool._new`: create, run the `opener` hook (caught), then make the
object available. -/
def _new (hooks : Hooks) (st : PoolState) (now : Int) (okf : Nat → Bool) :
    PoolState × Except PoolErr Nat :=
  match _create st now okf with
  | (st1, Except.error e) => (st1, Except.error e)
  | (st1, Except.ok o) =>
    match hookCaught hooks.opener o with
    | Except.error e => (st1, Except.error e)
    | Except.ok _ => ({ st1 with avail := o :: st1.avail }, Except.ok o)

/-- One iteration budget of the `Pool._fill` loop: for each of the
`tocreate` rounds, take a token without waiting (stop on failure),
create (a creation failure is caught and logged), then release the
token again whether or not the creation succeeded. -/
def fillIter (hooks : Hooks) (now : Int) (okf : Nat → Bool) :
    Nat → PoolState → PoolState
  | 0, st => st
  | k + 1, st =>
    match st.semTokens with
    | some 0 => st
    | some (v + 1) =>
      let st1 := (_new hooks { st with semTokens := some v } now okf).1
      fillIter hooks now okf k { st1 with semTokens := st1.semTokens.map (fun x => x + 1) }
    | none => fillIter hooks now okf k (_new hooks st now okf).1

/-- `Pool._fill`: top up towards `min_size` (the number of objects to
create is computed once, before the loop). -/
def _fill (hooks : Hooks) (cfg : PoolConfig) (st : PoolState) (now : Int)
    (okf : Nat → Bool) : PoolState :=
  if st.nobjs < cfg.min_size then fillIter hooks now okf (cfg.min_size - st.nobjs) st
  else st

/-- `Pool._empty`: drain `_todel`, counting the destructions (the
`closer` hook runs caught on each object and cannot affect state). -/
def _empty (st : PoolState) : PoolState :=
  if st.todel.isEmpty then st
  else { st with todel := [], ndestroys := st.ndestroys + st.todel.length }

/-- The freshly constructed pool state before the initial `_fill`. -/
def initState (cfg : PoolConfig) : PoolState :=
  ⟨[], [], [], [], 0, 0, 0, 0, 0, 0, 0, 0, 0, 0, 0, 0, 0, 0, 0,
    if cfg.max_size = 0 then none else some cfg.max_size⟩

/-- `Pool.__init__` (without the housekeeping thread itself): build the
empty state and run the initial `_fill`. -/
def mkPool (hooks : Hooks) (cfg : PoolConfig) (now : Int) (okf : Nat → Bool) :
    PoolState :=
  _fill hooks cfg (initState cfg) now okf

/-- `Pool._borrow`: the internal best-effort acquisition used by the
health check; `none` means the borrow failed (no token, or the object
is no longer available) and the state is unchanged. -/
def _borrow (st : PoolState) (o : Nat) : Option PoolState :=
  match st.semTokens with
  | some 0 => none
  | some (v + 1) =>
    if o ∈ st.avail then
      some { st with
              semTokens := some v
              avail := st.avail.erase o
              used := o :: st.used
              nborrows := st.nborrows + 1 }
    else none
  | none =>
    if o ∈ st.avail then
      some { st with
              avail := st.avail.erase o
              used := o :: st.used
              nborrows := st.nborrows + 1 }
    else none

/-- `Pool._return`: give back a borrowed object and release its token. -/
def _return (st : PoolState) (o : Nat) : PoolState :=
  { st with
    used := st.used.erase o
    avail := o :: st.avail
    nreturns := st.nreturns + 1
    semTokens := st.semTokens.map (fun v => v + 1) }

/-- The pop/bookkeeping tail of `Pool.get`, under the lock: pop an
available object, move it to in-use, bump the counters and stamp
`last_get`, then run the `getter` hook (caught). -/
def getPop (hooks : Hooks) (st : PoolState) (now : Int) :
    PoolState × Except PoolErr Nat :=
  match st.avail with
  | [] => (st, Except.error PoolErr.keyErr)
  | o :: rest =>
    let st1 :=
      { st with
        avail := rest
        used := o :: st.used
        nuses := st.nuses + 1
        uses := updU st.uses o (fun u => ⟨u.uses + 1, now, u.last_ret⟩) }
    match hookCaught hooks.getter o with
    | Except.error e => (st1, Except.error e)
    | Except.ok _ => (st1, Except.ok o)

/-- The locked section of `Pool.get`: create synchronously if nothing
is available (a creation failure releases the token, when one was
taken, and propagates), then pop. -/
def getLocked (hooks : Hooks) (st : PoolState) (now : Int) (okf : Nat → Bool)
    (hasSem : Bool) : PoolState × Except PoolErr Nat :=
  if st.avail.isEmpty then
    match _new hooks st now okf with
    | (st1, Except.error e) =>
      (if hasSem then { st1 with semTokens := st1.semTokens.map (fun v => v + 1) }
       else st1,
       Except.error e)
    | (st1, Except.ok _) => getPop hooks st1 now
  else getPop hooks st now

/-- `Pool.get`: with a bounded pool first take a capacity token; in the
sequential model an acquire with no free token cannot be satisfied and
surfaces as the `TimeOut` of the source (`_t` is the caller's timeout
argument, consumed only by the semaphore wait). -/
def get (hooks : Hooks) (st : PoolState) (now : Int) (okf : Nat → Bool)
    (_t : Option Int) : PoolState × Except PoolErr Nat :=
  match st.semTokens with
  | some 0 => (st, Except.error PoolErr.timeout)
  | some (v + 1) => getLocked hooks { st with semTokens := some v } now okf true
  | none => getLocked hooks st now okf false

/-- The locked section of `Pool.ret`: a no-op if the object is not
in-use (the early `return` happens before the semaphore release);
otherwise retire the object when worn out (`max_use`), or put it back
to available, and release one token. -/
def retLocked (cfg : PoolConfig) (st : PoolState) (o : Nat) (now : Int) :
    PoolState :=
  if o ∈ st.used then
    let st1 :=
      if cfg.max_use ≠ 0 ∧ cfg.max_use ≤ (getU st.uses o).uses then
        todelAdd (Out { st with nwornout := st.nwornout + 1 } o) o
      else
        { st with
          used := st.used.erase o
          avail := o :: st.avail
          uses := updU st.uses o (fun u => ⟨u.uses, u.last_get, now⟩) }
    { st1 with semTokens := st1.semTokens.map (fun v => v + 1) }
  else st

/-- `Pool.ret`: run the `retter` hook (caught), do the locked section,
then `_empty` and `_fill`. -/
def ret (hooks : Hooks) (cfg : PoolConfig) (st : PoolState) (o : Nat) (now : Int)
    (okf : Nat → Bool) : PoolState :=
  match hookCaught hooks.retter o with
  | Except.error _ => st
  | Except.ok _ => _fill hooks cfg (_empty (retLocked cfg st o now)) now okf

/-- One step of the borrow-age sweep of `Pool._hkRound`: an in-use
object held at least `max_using_delay_kill` is forgotten, queued for
destruction, and its token is released on the borrower's behalf. -/
def killStep (cfg : PoolConfig) (now : Int) (st : PoolState) (o : Nat) :
    PoolState :=
  if cfg.max_using_delay_kill ≠ 0 ∧
      cfg.max_using_delay_kill ≤ now - (getU st.uses o).last_get then
    let st1 := todelAdd (Out { st with nkilled := st.nkilled + 1 } o) o
    { st1 with semTokens := st1.semTokens.map (fun v => v + 1) }
  else st

/-- The effective warning delay (`max_using_delay or max_using_delay_kill`). -/
def warnDelay (cfg : PoolConfig) : Int :=
  if cfg.max_using_delay = 0 then cfg.max_using_delay_kill else cfg.max_using_delay

/-- The borrow-age sweep of `Pool._hkRound`, over a snapshot of the
in-use set (it runs at all only when a warning delay is configured). -/
def killPhase (cfg : PoolConfig) (st : PoolState) (now : Int) : PoolState :=
  if warnDelay cfg ≠ 0 then st.used.foldl (killStep cfg now) st else st

/-- The idle-sweep loop of `Pool._hkRound`, over a snapshot of the
available set: recycle objects idle for at least `max_avail_delay`,
stopping as soon as `_nobjs` drops to `min_size`. -/
def idleLoop (cfg : PoolConfig) (now : Int) : List Nat → PoolState → PoolState
  | [], st => st
  | o :: rest, st =>
    if cfg.max_avail_delay ≤ now - (getU st.uses o).last_ret then
      let st1 := todelAdd (Out { st with nrecycled := st.nrecycled + 1 } o) o
      if st1.nobjs ≤ cfg.min_size then st1 else idleLoop cfg now rest st1
    else idleLoop cfg now rest st

/-- The idle sweep of `Pool._hkRound`: runs only when `max_avail_delay`
is configured and the object count is strictly above `min_size`. -/
def idlePhase (cfg : PoolConfig) (st : PoolState) (now : Int) : PoolState :=
  if cfg.max_avail_delay ≠ 0 ∧ cfg.min_size < st.nobjs then
    idleLoop cfg now st.avail st
  else st

/-- `Pool._hkRound`: bump the round counter, then the borrow-age sweep
and the idle sweep. -/
def _hkRound (cfg : PoolConfig) (st : PoolState) (now : Int) : PoolState :=
  idlePhase cfg (killPhase cfg { st with hk_rounds := st.hk_rounds + 1 } now) now

/-- One object of `Pool._health_check`: transiently borrow it (skip the
object when the borrow fails), run the health hook — `hres o = none`
models the hook raising, which bumps `_hc_errors` and leaves `healthy`
at its `True` initialisation — return the object, and retire it only
when the hook reported unhealthy. -/
def healthStep (hres : Nat → Option Bool) (st : PoolState) (o : Nat) : PoolState :=
  match _borrow st o with
  | none => st
  | some st1 =>
    let st2 := { st1 with nhealth := st1.nhealth + 1 }
    let res :=
      match hres o with
      | some b => (b, st2)
      | none => (true, { st2 with hc_errors := st2.hc_errors + 1 })
    let st4 := _return res.2 o
    if res.1 then st4
    else todelAdd (Out { st4 with bad_health := st4.bad_health + 1 } o) o

/-- `Pool._health_check`: bump the round counter and run over a
snapshot of the available set. -/
def _health_check (hres : Nat → Option Bool) (st : PoolState) : PoolState :=
  let st0 := { st with hc_rounds := st.hc_rounds + 1 }
  st0.avail.foldl (healthStep hres) st0

/-- `Pool.__stats_data` for one object: the `stats` hook is called with
no surrounding `try`/`except`, so a raise propagates (`hres o = none`
models the hook raising; without a hook the `str(obj)` branch runs). -/
def stats_data (shook : Option (Nat → Option Nat)) (o : Nat) : Except PoolErr Nat :=
  match shook with
  | some f =>
    match f o with
    | some v => Except.ok v
    | none => Except.error PoolErr.hookErr
  | none => Except.ok o

/-- The per-object part of `Pool.stats`: the detailed `avail` and
`using` entries, each built by `__stats_data`; a hook raise escapes to
the caller of `stats`. -/
def statsCall (shook : Option (Nat → Option Nat)) (st : PoolState) :
    Except PoolErr (List Nat × List Nat) := do
  let a ← st.avail.mapM (stats_data shook)
  let u ← st.used.mapM (stats_data shook)
  return (a, u)

/-- Outcome of one use of the `Pool.obj` context manager. -/
inductive CtxResult where
  | ok (st : PoolState)
  | bodyRaised (st : PoolState)
  | getFailed (st : PoolState) (e : PoolErr)
deriving DecidableEq

/-- `Pool.obj` (a `@contextmanager`): `o = self.get(timeout); yield o;
self.ret(o)`.  An exception in the body is thrown into the generator
at the `yield`, so `ret` runs only on a normal exit. -/
def objCtx (hooks : Hooks) (cfg : PoolConfig) (st : PoolState) (now : Int)
    (okf : Nat → Bool) (t : Option Int) (bodyRaises : Nat → Bool) : CtxResult :=
  match get hooks st now okf t with
  | (st1, Except.error e) => CtxResult.getFailed st1 e
  | (st1, Except.ok o) =>
    if bodyRaises o then CtxResult.bodyRaised st1
    else CtxResult.ok (ret hooks cfg st1 o now okf)

/-- Proxy state for the pooled scope: the underlying pool plus the
context-local slot of the current execution context. -/
structure ProxyState where
  pool : PoolState
  localObj : Option Nat
deriving DecidableEq

/-- `Proxy._get_obj` (pooled scope): reuse the bound object, or acquire
one from the pool into the context-local slot. -/
def _get_obj (hooks : Hooks) (ps : ProxyState) (now : Int) (okf : Nat → Bool)
    (t : Option Int) : ProxyState × Except PoolErr Nat :=
  match ps.localObj with
  | some o => (ps, Except.ok o)
  | none =>
    match get hooks ps.pool now okf t with
    | (st1, Except.error e) => ({ ps with pool := st1 }, Except.error e)
    | (st1, Except.ok o) => (⟨st1, some o⟩, Except.ok o)

/-- `Proxy._ret_obj`: release the bound object to the pool and clear
the slot; a no-op when nothing is bound. -/
def _ret_obj (hooks : Hooks) (cfg : PoolConfig) (ps : ProxyState) (now : Int)
    (okf : Nat → Bool) : ProxyState :=
  match ps.localObj with
  | some o => ⟨ret hooks cfg ps.pool o now okf, none⟩
  | none => ps

/-- Outcome of one use of the `Proxy._obj` context manager. -/
inductive ProxyCtxResult where
  | ok (ps : ProxyState)
  | bodyRaised (ps : ProxyState)
  | getFailed (ps : ProxyState) (e : PoolErr)
deriving DecidableEq

/-- `Proxy._obj` (a `@contextmanager`): `yield self._get_obj(timeout);
self._ret_obj()`.  As with `Pool.obj`, an exception in the body skips
the release. -/
def proxyObjCtx (hooks : Hooks) (cfg : PoolConfig) (ps : ProxyState) (now : Int)
    (okf : Nat → Bool) (t : Option Int) (bodyRaises : Nat → Bool) : ProxyCtxResult :=
  match _get_obj hooks ps now okf t with
  | (ps1, Except.error e) => ProxyCtxResult.getFailed ps1 e
  | (ps1, Except.ok o) =>
    if bodyRaises o then ProxyCtxResult.bodyRaised ps1
    else ProxyCtxResult.ok (_ret_obj hooks cfg ps1 now okf)

/-! ## The pool invariant and the operation step relation -/

/-- Well-formedness invariant of a pool state: the membership sets are
duplicate-free and mutually disjoint, the object count and the
created/destroyed totals agree with the sets, the semaphore holds one
token per in-use object (bounded pools), and every tracked identity is
a past creation number. -/
def Inv (cfg : PoolConfig) (st : PoolState) : Prop :=
  st.avail.Nodup ∧
  st.used.Nodup ∧
  (∀ o ∈ st.avail, o ∉ st.used) ∧
  (∀ o ∈ st.avail, o ∉ st.todel) ∧
  (∀ o ∈ st.used, o ∉ st.todel) ∧
  st.avail.length + st.used.length = st.nobjs ∧
  st.nobjs + st.todel.length + st.ndestroys = st.ncreated ∧
  st.semTokens = (if cfg.max_size = 0 then none else some (cfg.max_size - st.used.length)) ∧
  (cfg.max_size ≠ 0 → st.used.length ≤ cfg.max_size) ∧
  (∀ o ∈ st.avail, o < st.ncreated) ∧
  (∀ o ∈ st.used, o < st.ncreated) ∧
  (∀ o ∈ st.todel, o < st.ncreated) ∧
  (∀ p ∈ st.uses, p.1 < st.ncreated)

/-- One pool operation, as invoked by callers or by the housekeeping
thread (`okf`, `now`, timeouts and health results vary per call). -/
inductive Step (hooks : Hooks) (cfg : PoolConfig) : PoolState → PoolState → Prop where
  | stepGet : ∀ st now okf t, Step hooks cfg st (get hooks st now okf t).1
  | stepRet : ∀ st o now okf, Step hooks cfg st (ret hooks cfg st o now okf)
  | stepHk : ∀ st now, Step hooks cfg st (_hkRound cfg st now)
  | stepHealth : ∀ st hres, Step hooks cfg st (_health_check hres st)
  | stepEmpty : ∀ st, Step hooks cfg st (_empty st)
  | stepFill : ∀ st now okf, Step hooks cfg st (_fill hooks cfg st now okf)
  | stepBorrow : ∀ st o st2, _borrow st o = some st2 → Step hooks cfg st st2
  | stepReturn : ∀ st o, o ∈ st.used → Step hooks cfg st (_return st o)

/-- States reachable from pool construction by any sequence of
operations. -/
inductive Reach (hooks : Hooks) (cfg : PoolConfig) : PoolState → Prop where
  | init : ∀ now okf, Reach hooks cfg (mkPool hooks cfg now okf)
  | next : ∀ st st2, Reach hooks cfg st → Step hooks cfg st st2 → Reach hooks cfg st2

/-! ## Association-list helpers -/

theorem lookupU_delU (l : List (Nat × UseInfo)) (o x : Nat) :
    lookupU (delU l x) o = if o = x then none else lookupU l o := by
  induction l with
  | nil => simp [delU, lookupU]
  | cons p l ih =>
    obtain ⟨a, u⟩ := p
    by_cases hax : a = x
    · subst hax
      rw [show delU ((a, u) :: l) a = delU l a from by simp [delU], ih]
      by_cases hoa : o = a
      · simp [hoa]
      · simp [lookupU, hoa]
        rw [if_neg (fun h : a = o => hoa h.symm)]
    · rw [show delU ((a, u) :: l) x = (a, u) :: delU l x from by simp [delU, hax]]
      by_cases hao : a = o
      · subst hao
        simp [lookupU, hax]
      · simp [lookupU, hao, ih]

theorem lookupU_updU (l : List (Nat × UseInfo)) (o x : Nat) (f : UseInfo → UseInfo) :
    lookupU (updU l x f) o =
      if o = x then (lookupU l o).map f else lookupU l o := by
  induction l with
  | nil => simp [updU, lookupU]
  | cons p l ih =>
    obtain ⟨a, u⟩ := p
    by_cases hax : a = x
    · subst hax
      rw [show updU ((a, u) :: l) a f = (a, f u) :: updU l a f from by simp [updU]]
      by_cases hao : a = o
      · subst hao
        simp [lookupU]
      · simp [lookupU, hao, fun h : o = a => hao h.symm, ih]
    · rw [show updU ((a, u) :: l) x f = (a, u) :: updU l x f from by simp [updU, hax]]
      by_cases hao : a = o
      · subst hao
        simp [lookupU, hax]
      · simp [lookupU, hao, ih]

theorem lookupU_mem (l : List (Nat × UseInfo)) (o : Nat) (u : UseInfo)
    (h : lookupU l o = some u) : (o, u) ∈ l := by
  induction l with
  | nil => simp [lookupU] at h
  | cons p l ih =>
    obtain ⟨a, v⟩ := p
    by_cases hao : a = o
    · subst hao
      simp [lookupU] at h
      simp [h]
    · simp [lookupU, hao] at h
      exact List.mem_cons_of_mem _ (ih h)

theorem mem_delU (l : List (Nat × UseInfo)) (x : Nat) (p : Nat × UseInfo)
    (h : p ∈ delU l x) : p ∈ l := by
  induction l with
  | nil => simp [delU] at h
  | cons q l ih =>
    by_cases hqx : q.1 = x
    · rw [show delU (q :: l) x = delU l x from by simp [delU, hqx]] at h
      exact List.mem_cons_of_mem _ (ih h)
    · rw [show delU (q :: l) x = q :: delU l x from by simp [delU, hqx]] at h
      rcases List.mem_cons.mp h with h | h
      · simp [h]
      · exact List.mem_cons_of_mem _ (ih h)

theorem mem_updU (l : List (Nat × UseInfo)) (x : Nat) (f : UseInfo → UseInfo)
    (p : Nat × UseInfo) (h : p ∈ updU l x f) : ∃ q ∈ l, p.1 = q.1 := by
  induction l with
  | nil => simp [updU] at h
  | cons q l ih =>
    rw [show updU (q :: l) x f = (if q.1 = x then (q.1, f q.2) else q) :: updU l x f
        from rfl] at h
    rcases List.mem_cons.mp h with h | h
    · refine ⟨q, List.mem_cons_self _ _, ?_⟩
      by_cases hqx : q.1 = x
      · simp [hqx] at h
        simp [h, hqx]
      · simp [hqx] at h
        simp [h]
    · obtain ⟨r, hr, hpr⟩ := ih h
      exact ⟨r, List.mem_cons_of_mem _ hr, hpr⟩

/-! ## Small structural lemmas -/

theorem mem_todelAdd_self (st : PoolState) (o : Nat) : o ∈ (todelAdd st o).todel := by
  by_cases h : o ∈ st.todel <;> simp [todelAdd, h]

theorem mem_todelAdd (st : PoolState) (o x : Nat) (h : x ∈ (todelAdd st o).todel) :
    x = o ∨ x ∈ st.todel := by
  by_cases ho : o ∈ st.todel
  · simp [todelAdd, ho] at h
    exact Or.inr h
  · simp [todelAdd, ho] at h
    exact h

/-- The invariant only looks at the sets, the uses table, `nobjs`,
`ncreated`, `ndestroys` and the semaphore; transport it along equal
components. -/
theorem inv_transport (cfg : PoolConfig) (stA stB : PoolState) (h : Inv cfg stA)
    (e1 : stB.avail = stA.avail) (e2 : stB.used = stA.used)
    (e3 : stB.todel = stA.todel) (e4 : stB.uses = stA.uses)
    (e5 : stB.nobjs = stA.nobjs) (e6 : stB.ncreated = stA.ncreated)
    (e7 : stB.ndestroys = stA.ndestroys) (e8 : stB.semTokens = stA.semTokens) :
    Inv cfg stB := by
  unfold Inv at *
  rw [e1, e2, e3, e4, e5, e6, e7, e8]
  exact h

/-- Retiring an available object (`self._out(obj); self._todel.add(obj)`
on `obj ∈ self._avail`, as in the idle sweep and the health check):
invariant preservation and the component changes. -/
theorem inv_retire_avail (cfg : PoolConfig) (st : PoolState) (o : Nat)
    (h : Inv cfg st) (ho : o ∈ st.avail) :
    Inv cfg (todelAdd (Out st o) o) ∧
    (todelAdd (Out st o) o).avail = st.avail.erase o ∧
    (todelAdd (Out st o) o).used = st.used ∧
    (todelAdd (Out st o) o).todel = o :: st.todel ∧
    (todelAdd (Out st o) o).nobjs = st.nobjs - 1 ∧
    (todelAdd (Out st o) o).ncreated = st.ncreated ∧
    (todelAdd (Out st o) o).semTokens = st.semTokens := by
  obtain ⟨hA, hU, hAU, hAT, hUT, hC, hT, hS, hL, hFA, hFU, hFT, hUF⟩ := h
  have hnotu : o ∉ st.used := hAU o ho
  have hnott : o ∉ st.todel := hAT o ho
  have eA : (todelAdd (Out st o) o).avail = st.avail.erase o := by
    simp [todelAdd, Out]
  have eU : (todelAdd (Out st o) o).used = st.used := by
    simp [todelAdd, Out, List.erase_of_not_mem hnotu]
  have eT : (todelAdd (Out st o) o).todel = o :: st.todel := by
    simp [todelAdd, Out, hnott]
  have eUs : (todelAdd (Out st o) o).uses = delU st.uses o := by
    simp [todelAdd, Out]
  have eN : (todelAdd (Out st o) o).nobjs = st.nobjs - 1 := by
    simp [todelAdd, Out, ho]
  have eC : (todelAdd (Out st o) o).ncreated = st.ncreated := by
    simp [todelAdd, Out]
  have eD : (todelAdd (Out st o) o).ndestroys = st.ndestroys := by
    simp [todelAdd, Out]
  have eS : (todelAdd (Out st o) o).semTokens = st.semTokens := by
    simp [todelAdd, Out]
  have hlen : 0 < st.avail.length := List.length_pos_of_mem ho
  have hlene : (st.avail.erase o).length = st.avail.length - 1 :=
    List.length_erase_of_mem ho
  refine ⟨?_, eA, eU, eT, eN, eC, eS⟩
  unfold Inv
  rw [eA, eU, eT, eUs, eN, eC, eD, eS]
  refine ⟨hA.erase o, hU, ?_, ?_, ?_, ?_, ?_, hS, hL, ?_, hFU, ?_, ?_⟩
  · intro x hx
    exact hAU x (List.mem_of_mem_erase hx)
  · intro x hx
    have hxm := (hA.mem_erase_iff).mp hx
    simp only [List.mem_cons, not_or]
    exact ⟨hxm.1, hAT x hxm.2⟩
  · intro x hx
    have hxo : ¬ x = o := fun he => hnotu (he ▸ hx)
    simp only [List.mem_cons, not_or]
    exact ⟨hxo, hUT x hx⟩
  · rw [hlene]
    omega
  · simp only [List.length_cons]
    omega
  · intro x hx
    exact hFA x (List.mem_of_mem_erase hx)
  · intro x hx
    rcases List.mem_cons.mp hx with he | hx
    · exact he ▸ hFA o ho
    · exact hFT x hx
  · intro p hp
    exact hUF p (mem_delU _ _ _ hp)

/-- Retiring an in-use object and releasing its token on the holder's
behalf (`self._out(obj); self._todel.add(obj); self._sem.release()`,
as in the borrow-age kill and the wear-out branch of `ret`):
invariant preservation and the component changes. -/
theorem inv_retire_used (cfg : PoolConfig) (st : PoolState) (o : Nat)
    (h : Inv cfg st) (ho : o ∈ st.used) :
    ∀ stB : PoolState,
      stB = { todelAdd (Out st o) o with
              semTokens := (todelAdd (Out st o) o).semTokens.map (fun v => v + 1) } →
      Inv cfg stB ∧
      stB.avail = st.avail ∧
      stB.used = st.used.erase o ∧
      stB.todel = o :: st.todel ∧
      stB.nobjs = st.nobjs - 1 ∧
      stB.ncreated = st.ncreated ∧
      stB.semTokens = st.semTokens.map (fun v => v + 1) := by
  obtain ⟨hA, hU, hAU, hAT, hUT, hC, hT, hS, hL, hFA, hFU, hFT, hUF⟩ := h
  intro stB hstB
  subst hstB
  have hnota : o ∉ st.avail := fun ha => hAU o ha ho
  have hnott : o ∉ st.todel := hUT o ho
  have eA : ({ todelAdd (Out st o) o with
      semTokens := (todelAdd (Out st o) o).semTokens.map (fun v => v + 1) } :
      PoolState).avail = st.avail := by
    simp [todelAdd, Out, List.erase_of_not_mem hnota]
  have eU : ({ todelAdd (Out st o) o with
      semTokens := (todelAdd (Out st o) o).semTokens.map (fun v => v + 1) } :
      PoolState).used = st.used.erase o := by
    simp [todelAdd, Out]
  have eT : ({ todelAdd (Out st o) o with
      semTokens := (todelAdd (Out st o) o).semTokens.map (fun v => v + 1) } :
      PoolState).todel = o :: st.todel := by
    simp [todelAdd, Out, hnott]
  have eUs : ({ todelAdd (Out st o) o with
      semTokens := (todelAdd (Out st o) o).semTokens.map (fun v => v + 1) } :
      PoolState).uses = delU st.uses o := by
    simp [todelAdd, Out]
  have eN : ({ todelAdd (Out st o) o with
      semTokens := (todelAdd (Out st o) o).semTokens.map (fun v => v + 1) } :
      PoolState).nobjs = st.nobjs - 1 := by
    simp [todelAdd, Out, ho]
  have eC : ({ todelAdd (Out st o) o with
      semTokens := (todelAdd (Out st o) o).semTokens.map (fun v => v + 1) } :
      PoolState).ncreated = st.ncreated := by
    simp [todelAdd, Out]
  have eD : ({ todelAdd (Out st o) o with
      semTokens := (todelAdd (Out st o) o).semTokens.map (fun v => v + 1) } :
      PoolState).ndestroys = st.ndestroys := by
    simp [todelAdd, Out]
  have eS : ({ todelAdd (Out st o) o with
      semTokens := (todelAdd (Out st o) o).semTokens.map (fun v => v + 1) } :
      PoolState).semTokens = st.semTokens.map (fun v => v + 1) := by
    simp [todelAdd, Out]
  have hlen : 0 < st.used.length := List.length_pos_of_mem ho
  have hlene : (st.used.erase o).length = st.used.length - 1 :=
    List.length_erase_of_mem ho
  refine ⟨?_, eA, eU, eT, eN, eC, eS⟩
  unfold Inv
  rw [eA, eU, eT, eUs, eN, eC, eD, eS]
  refine ⟨hA, hU.erase o, ?_, ?_, ?_, ?_, ?_, ?_, ?_, hFA, ?_, ?_, ?_⟩
  · intro x hx
    exact fun hm => hAU x hx (List.mem_of_mem_erase hm)
  · intro x hx
    have hxo : ¬ x = o := fun he => hnota (he ▸ hx)
    simp only [List.mem_cons, not_or]
    exact ⟨hxo, hAT x hx⟩
  · intro x hx
    have hxm := (hU.mem_erase_iff).mp hx
    simp only [List.mem_cons, not_or]
    exact ⟨hxm.1, hUT x hxm.2⟩
  · rw [hlene]
    omega
  · show st.nobjs - 1 + (o :: st.todel).length + st.ndestroys = st.ncreated
    simp only [List.length_cons]
    omega
  · rw [hS, hlene]
    by_cases hm : cfg.max_size = 0
    · simp [hm]
    · have hle : st.used.length ≤ cfg.max_size := hL hm
      have harith : cfg.max_size - st.used.length + 1 =
          cfg.max_size - (st.used.length - 1) := by omega
      simp [hm, harith]
  · intro hm
    rw [hlene]
    exact le_trans (Nat.sub_le _ _) (hL hm)
  · intro x hx
    exact hFU x (List.mem_of_mem_erase hx)
  · intro x hx
    rcases List.mem_cons.mp hx with he | hx
    · exact he ▸ hFU o ho
    · exact hFT x hx
  · intro p hp
    exact hUF p (mem_delU _ _ _ hp)

/-- A caught hook call never surfaces an error, whatever the hook
does: this is the `try`/`except` around every lifecycle hook. -/
theorem hookCaught_ok (h : Option (Nat → Bool)) (o : Nat) :
    hookCaught h o = Except.ok () := by
  unfold hookCaught hookRun
  by_cases hr : hookRaises h o <;> simp [hr]

/-- `_new` on a failing factory: only `_ncreating` moves. -/
theorem new_fail (hooks : Hooks) (st : PoolState) (now : Int) (okf : Nat → Bool)
    (hno : okf st.ncreated = false) :
    _new hooks st now okf =
      ({ st with ncreating := st.ncreating + 1 }, Except.error PoolErr.creation) := by
  simp [_new, _create, hno]

/-- `_new` on a succeeding factory: the new object is the current
creation number, registered and made available. -/
theorem new_ok (hooks : Hooks) (st : PoolState) (now : Int) (okf : Nat → Bool)
    (hok : okf st.ncreated = true) :
    _new hooks st now okf =
      ({ st with
          ncreating := st.ncreating + 1
          ncreated := st.ncreated + 1
          nobjs := st.nobjs + 1
          uses := (st.ncreated, ⟨0, now, now⟩) :: st.uses
          avail := st.ncreated :: st.avail }, Except.ok st.ncreated) := by
  simp [_new, _create, hok, hookCaught_ok]

/-- `_empty` preserves the invariant. -/
theorem inv_empty (cfg : PoolConfig) (st : PoolState) (h : Inv cfg st) :
    Inv cfg (_empty st) := by
  obtain ⟨hA, hU, hAU, hAT, hUT, hC, hT, hS, hL, hFA, hFU, hFT, hUF⟩ := h
  unfold _empty
  by_cases ht : st.todel.isEmpty
  · simp only [ht, if_pos]
    exact ⟨hA, hU, hAU, hAT, hUT, hC, hT, hS, hL, hFA, hFU, hFT, hUF⟩
  · simp only [ht, Bool.false_eq_true, if_false]
    refine ⟨hA, hU, hAU, ?_, ?_, hC, ?_, hS, hL, hFA, hFU, ?_, hUF⟩
    · intro x _
      simp
    · intro x _
      simp
    · show st.nobjs + ([] : List Nat).length + (st.ndestroys + st.todel.length) =
        st.ncreated
      simp only [List.length_nil]
      omega
    · intro x hx
      simp at hx

/-- A successful `_borrow` preserves the invariant; component changes. -/
theorem inv_borrow (cfg : PoolConfig) (st : PoolState) (o : Nat) (st2 : PoolState)
    (h : Inv cfg st) (hb : _borrow st o = some st2) :
    Inv cfg st2 ∧ o ∈ st.avail ∧
    st2.avail = st.avail.erase o ∧ st2.used = o :: st.used ∧
    st2.todel = st.todel ∧ st2.uses = st.uses ∧
    st2.nobjs = st.nobjs ∧ st2.ncreated = st.ncreated ∧
    st2.ndestroys = st.ndestroys ∧
    st2.semTokens = st.semTokens.map (fun v => v - 1) := by
  obtain ⟨hA, hU, hAU, hAT, hUT, hC, hT, hS, hL, hFA, hFU, hFT, hUF⟩ := h
  have hmain : o ∈ st.avail ∧
      (st.semTokens = none ∨ ∃ v, st.semTokens = some (v + 1)) ∧
      st2 = { st with
              semTokens := st.semTokens.map (fun v => v - 1)
              avail := st.avail.erase o
              used := o :: st.used
              nborrows := st.nborrows + 1 } := by
    unfold _borrow at hb
    rcases hsem : st.semTokens with _ | v
    · rw [hsem] at hb
      by_cases ho : o ∈ st.avail
      · simp only [ho, if_pos] at hb
        exact ⟨ho, Or.inl rfl, by cases hb; simp [hsem]⟩
      · simp [ho] at hb
    · rcases v with _ | v
      · rw [hsem] at hb
        simp at hb
      · rw [hsem] at hb
        by_cases ho : o ∈ st.avail
        · simp only [ho, if_pos] at hb
          exact ⟨ho, Or.inr ⟨v, rfl⟩, by cases hb; simp [hsem]⟩
        · simp [ho] at hb
  obtain ⟨ho, hsempos, hst2⟩ := hmain
  subst hst2
  have hnotu : o ∉ st.used := hAU o ho
  have hlen : 0 < st.avail.length := List.length_pos_of_mem ho
  have hlene : (st.avail.erase o).length = st.avail.length - 1 :=
    List.length_erase_of_mem ho
  have hpos : cfg.max_size ≠ 0 → 0 < cfg.max_size - st.used.length := by
    intro hm
    rcases hsempos with hn | ⟨v, hv⟩
    · rw [hS, if_neg hm] at hn
      simp at hn
    · rw [hS, if_neg hm] at hv
      have := Option.some.inj hv
      omega
  refine ⟨⟨?_, ?_, ?_, ?_, ?_, ?_, ?_, ?_, ?_, ?_, ?_, ?_, ?_⟩,
    ho, rfl, rfl, rfl, rfl, rfl, rfl, rfl, rfl⟩
  · exact hA.erase o
  · exact List.nodup_cons.mpr ⟨hnotu, hU⟩
  · intro x hx
    have hxm := (hA.mem_erase_iff).mp hx
    simp only [List.mem_cons, not_or]
    exact ⟨hxm.1, hAU x hxm.2⟩
  · intro x hx
    exact hAT x (List.mem_of_mem_erase hx)
  · intro x hx
    rcases List.mem_cons.mp hx with he | hx
    · exact he ▸ hAT o ho
    · exact hUT x hx
  · show (st.avail.erase o).length + (o :: st.used).length = st.nobjs
    rw [hlene]
    simp only [List.length_cons]
    omega
  · exact hT
  · show st.semTokens.map (fun v => v - 1) = _
    rw [hS]
    by_cases hm : cfg.max_size = 0
    · simp [hm]
    · simp [hm, Nat.sub_sub]
  · intro hm
    show (o :: st.used).length ≤ cfg.max_size
    have := hpos hm
    simp only [List.length_cons]
    omega
  · intro x hx
    exact hFA x (List.mem_of_mem_erase hx)
  · intro x hx
    rcases List.mem_cons.mp hx with he | hx
    · exact he ▸ hFA o ho
    · exact hFU x hx
  · exact hFT
  · exact hUF

/-- `_return` of an in-use object preserves the invariant; component
changes. -/
theorem inv_return (cfg : PoolConfig) (st : PoolState) (o : Nat)
    (h : Inv cfg st) (ho : o ∈ st.used) :
    Inv cfg (_return st o) ∧
    (_return st o).avail = o :: st.avail ∧
    (_return st o).used = st.used.erase o ∧
    (_return st o).todel = st.todel ∧
    (_return st o).uses = st.uses ∧
    (_return st o).nobjs = st.nobjs ∧
    (_return st o).ncreated = st.ncreated ∧
    (_return st o).semTokens = st.semTokens.map (fun v => v + 1) := by
  obtain ⟨hA, hU, hAU, hAT, hUT, hC, hT, hS, hL, hFA, hFU, hFT, hUF⟩ := h
  have hnota : o ∉ st.avail := fun ha => hAU o ha ho
  have hlen : 0 < st.used.length := List.length_pos_of_mem ho
  have hlene : (st.used.erase o).length = st.used.length - 1 :=
    List.length_erase_of_mem ho
  refine ⟨⟨?_, ?_, ?_, ?_, ?_, ?_, ?_, ?_, ?_, ?_, ?_, ?_, ?_⟩,
    rfl, rfl, rfl, rfl, rfl, rfl, rfl⟩
  · exact List.nodup_cons.mpr ⟨hnota, hA⟩
  · exact hU.erase o
  · intro x hx
    rcases List.mem_cons.mp hx with he | hx
    · subst he
      intro hm
      exact ((hU.mem_erase_iff).mp hm).1 rfl
    · intro hm
      exact hAU x hx (List.mem_of_mem_erase hm)
  · intro x hx
    rcases List.mem_cons.mp hx with he | hx
    · exact he ▸ hUT o ho
    · exact hAT x hx
  · intro x hx
    exact hUT x (List.mem_of_mem_erase hx)
  · show (o :: st.avail).length + (st.used.erase o).length = st.nobjs
    rw [hlene]
    simp only [List.length_cons]
    omega
  · exact hT
  · show st.semTokens.map (fun v => v + 1) =
      if cfg.max_size = 0 then none else some (cfg.max_size - (st.used.erase o).length)
    rw [hS, hlene]
    by_cases hm : cfg.max_size = 0
    · simp [hm]
    · have hle : st.used.length ≤ cfg.max_size := hL hm
      have harith : cfg.max_size - st.used.length + 1 =
          cfg.max_size - (st.used.length - 1) := by omega
      simp [hm, harith]
  · intro hm
    show (st.used.erase o).length ≤ cfg.max_size
    rw [hlene]
    exact le_trans (Nat.sub_le _ _) (hL hm)
  · intro x hx
    rcases List.mem_cons.mp hx with he | hx
    · exact he ▸ hFU o ho
    · exact hFA x hx
  · intro x hx
    exact hFU x (List.mem_of_mem_erase hx)
  · exact hFT
  · exact hUF

/-- `_new` preserves the invariant (whether or not the creation
succeeds); component facts used by the fill and get proofs. -/
theorem inv_new (hooks : Hooks) (cfg : PoolConfig) (st : PoolState) (now : Int)
    (okf : Nat → Bool) (h : Inv cfg st) :
    Inv cfg (_new hooks st now okf).1 ∧
    (_new hooks st now okf).1.used = st.used ∧
    (_new hooks st now okf).1.todel = st.todel ∧
    (_new hooks st now okf).1.semTokens = st.semTokens ∧
    (_new hooks st now okf).1.ndestroys = st.ndestroys ∧
    st.ncreated ≤ (_new hooks st now okf).1.ncreated ∧
    (∀ x, x < st.ncreated →
      lookupU (_new hooks st now okf).1.uses x = lookupU st.uses x) ∧
    (∀ x, x < st.ncreated → x ∉ st.avail → x ∉ (_new hooks st now okf).1.avail) := by
  obtain ⟨hA, hU, hAU, hAT, hUT, hC, hT, hS, hL, hFA, hFU, hFT, hUF⟩ := h
  by_cases hok : okf st.ncreated = true
  · rw [new_ok hooks st now okf hok]
    refine ⟨⟨?_, hU, ?_, ?_, hUT, ?_, ?_, hS, hL, ?_, ?_, ?_, ?_⟩,
      rfl, rfl, rfl, rfl, ?_, ?_, ?_⟩
    · refine List.nodup_cons.mpr ⟨?_, hA⟩
      intro hm
      exact absurd (hFA _ hm) (lt_irrefl _)
    · intro x hx
      rcases List.mem_cons.mp hx with he | hx
      · subst he
        intro hm
        exact absurd (hFU _ hm) (lt_irrefl _)
      · exact hAU x hx
    · intro x hx
      rcases List.mem_cons.mp hx with he | hx
      · subst he
        intro hm
        exact absurd (hFT _ hm) (lt_irrefl _)
      · exact hAT x hx
    · show (st.ncreated :: st.avail).length + st.used.length = st.nobjs + 1
      simp only [List.length_cons]
      omega
    · show st.nobjs + 1 + st.todel.length + st.ndestroys = st.ncreated + 1
      omega
    · intro x hx
      show x < st.ncreated + 1
      rcases List.mem_cons.mp hx with he | hx
      · omega
      · exact lt_trans (hFA x hx) (Nat.lt_succ_self _)
    · intro x hx
      exact lt_trans (hFU x hx) (Nat.lt_succ_self _)
    · intro x hx
      exact lt_trans (hFT x hx) (Nat.lt_succ_self _)
    · intro p hp
      show p.1 < st.ncreated + 1
      rcases List.mem_cons.mp hp with he | hp
      · rw [he]
        exact Nat.lt_succ_self _
      · exact lt_trans (hUF p hp) (Nat.lt_succ_self _)
    · exact Nat.le_succ _
    · intro x hx
      show lookupU ((st.ncreated, ⟨0, now, now⟩) :: st.uses) x = lookupU st.uses x
      simp only [lookupU]
      rw [if_neg (by omega)]
    · intro x hx hnx
      show x ∉ st.ncreated :: st.avail
      simp only [List.mem_cons, not_or]
      exact ⟨by omega, hnx⟩
  · rw [new_fail hooks st now okf (by simpa using hok)]
    exact ⟨⟨hA, hU, hAU, hAT, hUT, hC, hT, hS, hL, hFA, hFU, hFT, hUF⟩,
      rfl, rfl, rfl, rfl, le_refl _, fun x _ => rfl, fun x _ hnx => hnx⟩

/-- A fill iteration that succeeds in taking a token nets out to a
plain `_new`: the token is taken before and released right after the
creation, and `_new` never touches the semaphore. -/
theorem fillIter_sem_pos (hooks : Hooks) (now : Int) (okf : Nat → Bool)
    (k : Nat) (st : PoolState) (v : Nat) (hsem : st.semTokens = some (v + 1)) :
    fillIter hooks now okf (k + 1) st =
      fillIter hooks now okf k (_new hooks st now okf).1 := by
  have h1 : fillIter hooks now okf (k + 1) st =
      fillIter hooks now okf k
        { (_new hooks { st with semTokens := some v } now okf).1 with
          semTokens :=
            ((_new hooks { st with semTokens := some v } now okf).1.semTokens).map
              (fun x => x + 1) } := by
    rw [show fillIter hooks now okf (k + 1) st =
        (match st.semTokens with
          | some 0 => st
          | some (v + 1) =>
            fillIter hooks now okf k
              { (_new hooks { st with semTokens := some v } now okf).1 with
                semTokens :=
                  ((_new hooks { st with semTokens := some v } now okf).1.semTokens).map
                    (fun x => x + 1) }
          | none => fillIter hooks now okf k (_new hooks st now okf).1) from rfl]
    rw [hsem]
  rw [h1]
  congr 1
  by_cases hok : okf st.ncreated = true
  · rw [new_ok hooks st now okf hok,
      new_ok hooks { st with semTokens := some v } now okf hok]
    simp [hsem]
  · have hno : okf st.ncreated = false := by simpa using hok
    rw [new_fail hooks st now okf hno,
      new_fail hooks { st with semTokens := some v } now okf hno]
    simp [hsem]

/-- The fill loop preserves the invariant, leaves the in-use and
pending sets and the semaphore untouched, and only adds fresh objects. -/
theorem inv_fillIter (hooks : Hooks) (cfg : PoolConfig) (now : Int) (okf : Nat → Bool) :
    ∀ (k : Nat) (st : PoolState), Inv cfg st →
      Inv cfg (fillIter hooks now okf k st) ∧
      (fillIter hooks now okf k st).used = st.used ∧
      (fillIter hooks now okf k st).todel = st.todel ∧
      (fillIter hooks now okf k st).semTokens = st.semTokens ∧
      (fillIter hooks now okf k st).ndestroys = st.ndestroys ∧
      st.ncreated ≤ (fillIter hooks now okf k st).ncreated ∧
      (∀ x, x < st.ncreated →
        lookupU (fillIter hooks now okf k st).uses x = lookupU st.uses x) ∧
      (∀ x, x < st.ncreated → x ∉ st.avail →
        x ∉ (fillIter hooks now okf k st).avail) := by
  intro k
  induction k with
  | zero =>
    intro st h
    exact ⟨h, rfl, rfl, rfl, rfl, le_refl _, fun x _ => rfl, fun x _ hnx => hnx⟩
  | succ k ih =>
    intro st h
    rcases hsem : st.semTokens with _ | v
    · have hstep : fillIter hooks now okf (k + 1) st =
          fillIter hooks now okf k (_new hooks st now okf).1 := by
        rw [show fillIter hooks now okf (k + 1) st =
            (match st.semTokens with
              | some 0 => st
              | some (v + 1) =>
                fillIter hooks now okf k
                  { (_new hooks { st with semTokens := some v } now okf).1 with
                    semTokens :=
                      ((_new hooks { st with
                        semTokens := some v } now okf).1.semTokens).map
                        (fun x => x + 1) }
              | none => fillIter hooks now okf k (_new hooks st now okf).1)
            from rfl]
        rw [hsem]
      rw [hstep]
      obtain ⟨hI, hu, ht, hs, hd, hc, hlk, hav⟩ := inv_new hooks cfg st now okf h
      obtain ⟨iI, iu, it, is2, id2, ic, ilk, iav⟩ := ih _ hI
      refine ⟨iI, by rw [iu, hu], by rw [it, ht], by rw [is2, hs]; exact hsem,
        by rw [id2, hd], le_trans hc ic, ?_, ?_⟩
      · intro x hx
        rw [ilk x (lt_of_lt_of_le hx hc), hlk x hx]
      · intro x hx hnx
        exact iav x (lt_of_lt_of_le hx hc) (hav x hx hnx)
    · rcases v with _ | v
      · have hstep : fillIter hooks now okf (k + 1) st = st := by
          rw [show fillIter hooks now okf (k + 1) st =
              (match st.semTokens with
                | some 0 => st
                | some (v + 1) =>
                  fillIter hooks now okf k
                    { (_new hooks { st with semTokens := some v } now okf).1 with
                      semTokens :=
                        ((_new hooks { st with
                          semTokens := some v } now okf).1.semTokens).map
                          (fun x => x + 1) }
                | none => fillIter hooks now okf k (_new hooks st now okf).1)
              from rfl]
          rw [hsem]
        rw [hstep]
        exact ⟨h, rfl, rfl, hsem, rfl, le_refl _, fun x _ => rfl, fun x _ hnx => hnx⟩
      · rw [fillIter_sem_pos hooks now okf k st v hsem]
        obtain ⟨hI, hu, ht, hs, hd, hc, hlk, hav⟩ := inv_new hooks cfg st now okf h
        obtain ⟨iI, iu, it, is2, id2, ic, ilk, iav⟩ := ih _ hI
        refine ⟨iI, by rw [iu, hu], by rw [it, ht], by rw [is2, hs]; exact hsem,
          by rw [id2, hd], le_trans hc ic, ?_, ?_⟩
        · intro x hx
          rw [ilk x (lt_of_lt_of_le hx hc), hlk x hx]
        · intro x hx hnx
          exact iav x (lt_of_lt_of_le hx hc) (hav x hx hnx)

/-- `_fill` preserves the invariant; same component facts as the loop. -/
theorem inv_fill (hooks : Hooks) (cfg : PoolConfig) (st : PoolState) (now : Int)
    (okf : Nat → Bool) (h : Inv cfg st) :
    Inv cfg (_fill hooks cfg st now okf) ∧
    (_fill hooks cfg st now okf).used = st.used ∧
    (_fill hooks cfg st now okf).todel = st.todel ∧
    (_fill hooks cfg st now okf).semTokens = st.semTokens ∧
    (_fill hooks cfg st now okf).ndestroys = st.ndestroys ∧
    st.ncreated ≤ (_fill hooks cfg st now okf).ncreated ∧
    (∀ x, x < st.ncreated →
      lookupU (_fill hooks cfg st now okf).uses x = lookupU st.uses x) ∧
    (∀ x, x < st.ncreated → x ∉ st.avail →
      x ∉ (_fill hooks cfg st now okf).avail) := by
  unfold _fill
  by_cases hlt : st.nobjs < cfg.min_size
  · rw [if_pos hlt]
    exact inv_fillIter hooks cfg now okf _ st h
  · rw [if_neg hlt]
    exact ⟨h, rfl, rfl, rfl, rfl, le_refl _, fun x _ => rfl, fun x _ hnx => hnx⟩

/-- The freshly constructed (pre-fill) state satisfies the invariant. -/
theorem inv_init (cfg : PoolConfig) : Inv cfg (initState cfg) := by
  unfold Inv initState
  refine ⟨List.nodup_nil, List.nodup_nil, ?_, ?_, ?_, rfl, rfl, ?_, ?_, ?_, ?_, ?_, ?_⟩
  · intro x hx
    simp at hx
  · intro x hx
    simp at hx
  · intro x hx
    simp at hx
  · simp
  · intro _
    simp
  · intro x hx
    simp at hx
  · intro x hx
    simp at hx
  · intro x hx
    simp at hx
  · intro p hp
    simp at hp

/-- Pool construction establishes the invariant. -/
theorem inv_mk (hooks : Hooks) (cfg : PoolConfig) (now : Int) (okf : Nat → Bool) :
    Inv cfg (mkPool hooks cfg now okf) :=
  (inv_fill hooks cfg (initState cfg) now okf (inv_init cfg)).1

/-- Invariant transport where the uses table may change as long as its
keys come from the old table. -/
theorem inv_transport_uses (cfg : PoolConfig) (stA stB : PoolState) (h : Inv cfg stA)
    (e1 : stB.avail = stA.avail) (e2 : stB.used = stA.used)
    (e3 : stB.todel = stA.todel)
    (e4 : ∀ p ∈ stB.uses, ∃ q ∈ stA.uses, p.1 = q.1)
    (e5 : stB.nobjs = stA.nobjs) (e6 : stB.ncreated = stA.ncreated)
    (e7 : stB.ndestroys = stA.ndestroys) (e8 : stB.semTokens = stA.semTokens) :
    Inv cfg stB := by
  obtain ⟨hA, hU, hAU, hAT, hUT, hC, hT, hS, hL, hFA, hFU, hFT, hUF⟩ := h
  unfold Inv
  rw [e1, e2, e3, e5, e6, e7, e8]
  refine ⟨hA, hU, hAU, hAT, hUT, hC, hT, hS, hL, hFA, hFU, hFT, ?_⟩
  intro p hp
  obtain ⟨q, hq, hpq⟩ := e4 p hp
  rw [hpq]
  exact hUF q hq

/-- The pop/bookkeeping step of `get` establishes the invariant, given
the state of the locked section: when the pool is bounded one token
(for the object about to be in-use) has already been taken. -/
theorem inv_pop (cfg : PoolConfig) (st : PoolState) (o : Nat) (rest : List Nat)
    (now : Int)
    (hA : (o :: rest).Nodup) (hU : st.used.Nodup)
    (hAU : ∀ x ∈ o :: rest, x ∉ st.used)
    (hAT : ∀ x ∈ o :: rest, x ∉ st.todel)
    (hUT : ∀ x ∈ st.used, x ∉ st.todel)
    (hC : (o :: rest).length + st.used.length = st.nobjs)
    (hT : st.nobjs + st.todel.length + st.ndestroys = st.ncreated)
    (hS2 : st.semTokens = if cfg.max_size = 0 then none
      else some (cfg.max_size - st.used.length - 1))
    (hL2 : cfg.max_size ≠ 0 → st.used.length < cfg.max_size)
    (hFA : ∀ x ∈ o :: rest, x < st.ncreated)
    (hFU : ∀ x ∈ st.used, x < st.ncreated)
    (hFT : ∀ x ∈ st.todel, x < st.ncreated)
    (hUF : ∀ p ∈ st.uses, p.1 < st.ncreated) :
    Inv cfg { st with
      avail := rest
      used := o :: st.used
      nuses := st.nuses + 1
      uses := updU st.uses o (fun u => ⟨u.uses + 1, now, u.last_ret⟩) } := by
  obtain ⟨hno, hrest⟩ := List.nodup_cons.mp hA
  refine ⟨hrest, ?_, ?_, ?_, ?_, ?_, hT, ?_, ?_, ?_, ?_, hFT, ?_⟩
  · exact List.nodup_cons.mpr ⟨hAU o (List.mem_cons_self _ _), hU⟩
  · intro x hx
    simp only [List.mem_cons, not_or]
    constructor
    · intro he
      exact hno (he ▸ hx)
    · exact hAU x (List.mem_cons_of_mem _ hx)
  · intro x hx
    exact hAT x (List.mem_cons_of_mem _ hx)
  · intro x hx
    rcases List.mem_cons.mp hx with he | hx
    · exact he ▸ hAT o (List.mem_cons_self _ _)
    · exact hUT x hx
  · show rest.length + (o :: st.used).length = st.nobjs
    simp only [List.length_cons] at hC ⊢
    omega
  · show st.semTokens = if cfg.max_size = 0 then none
      else some (cfg.max_size - (o :: st.used).length)
    rw [hS2]
    by_cases hm : cfg.max_size = 0
    · simp [hm]
    · simp only [if_neg hm, List.length_cons, Nat.sub_sub]
  · intro hm
    show (o :: st.used).length ≤ cfg.max_size
    have := hL2 hm
    simp only [List.length_cons]
    omega
  · intro x hx
    exact hFA x (List.mem_cons_of_mem _ hx)
  · intro x hx
    rcases List.mem_cons.mp hx with he | hx
    · exact he ▸ hFA o (List.mem_cons_self _ _)
    · exact hFU x hx
  · intro p hp
    obtain ⟨q, hq, hpq⟩ := mem_updU _ _ _ _ hp
    rw [hpq]
    exact hUF q hq

/-- `get` on an unbounded pool goes straight to the locked section. -/
theorem get_sem_none (hooks : Hooks) (st : PoolState) (now : Int) (okf : Nat → Bool)
    (t : Option Int) (hsem : st.semTokens = none) :
    get hooks st now okf t = getLocked hooks st now okf false := by
  unfold get
  rw [hsem]

/-- `get` with no free token fails with the `TimeOut` of the source. -/
theorem get_sem_zero (hooks : Hooks) (st : PoolState) (now : Int) (okf : Nat → Bool)
    (t : Option Int) (hsem : st.semTokens = some 0) :
    get hooks st now okf t = (st, Except.error PoolErr.timeout) := by
  unfold get
  rw [hsem]

/-- `get` with a free token consumes it and runs the locked section. -/
theorem get_sem_pos (hooks : Hooks) (st : PoolState) (now : Int) (okf : Nat → Bool)
    (t : Option Int) (v : Nat) (hsem : st.semTokens = some (v + 1)) :
    get hooks st now okf t =
      getLocked hooks { st with semTokens := some v } now okf true := by
  unfold get
  rw [hsem]

/-- The locked section with an available object pops directly. -/
theorem getLocked_avail (hooks : Hooks) (st : PoolState) (now : Int) (okf : Nat → Bool)
    (b : Bool) (hne : st.avail.isEmpty = false) :
    getLocked hooks st now okf b = getPop hooks st now := by
  unfold getLocked
  simp [hne]

/-- The locked section with nothing available and a failing factory
releases the token (when one was taken) and propagates the failure. -/
theorem getLocked_empty_fail (hooks : Hooks) (st : PoolState) (now : Int)
    (okf : Nat → Bool) (b : Bool) (hav : st.avail.isEmpty = true)
    (hno : okf st.ncreated = false) :
    getLocked hooks st now okf b =
      ((if b then { st with
          ncreating := st.ncreating + 1
          semTokens := st.semTokens.map (fun v => v + 1) }
        else { st with ncreating := st.ncreating + 1 }), Except.error PoolErr.creation) := by
  cases b <;> simp [getLocked, hav, new_fail hooks st now okf hno]

/-- The locked section with nothing available and a succeeding factory
creates the object and pops it. -/
theorem getLocked_empty_ok (hooks : Hooks) (st : PoolState) (now : Int)
    (okf : Nat → Bool) (b : Bool) (hav : st.avail.isEmpty = true)
    (hok : okf st.ncreated = true) :
    getLocked hooks st now okf b =
      getPop hooks { st with
        ncreating := st.ncreating + 1
        ncreated := st.ncreated + 1
        nobjs := st.nobjs + 1
        uses := (st.ncreated, ⟨0, now, now⟩) :: st.uses
        avail := st.ncreated :: st.avail } now := by
  simp [getLocked, hav, new_ok hooks st now okf hok]

/-- The pop of an available head object. -/
theorem getPop_cons (hooks : Hooks) (st : PoolState) (now : Int) (o : Nat)
    (rest : List Nat) (ha : st.avail = o :: rest) :
    getPop hooks st now =
      ({ st with
          avail := rest
          used := o :: st.used
          nuses := st.nuses + 1
          uses := updU st.uses o (fun u => ⟨u.uses + 1, now, u.last_ret⟩) },
       Except.ok o) := by
  unfold getPop
  rw [ha]
  simp [hookCaught_ok]

/-- `get` preserves the invariant; moreover the uses table is either
untouched, bumped at the acquired key, or extended with the fresh key
and bumped there. -/
theorem inv_get (hooks : Hooks) (cfg : PoolConfig) (st : PoolState) (now : Int)
    (okf : Nat → Bool) (t : Option Int) (h : Inv cfg st) :
    Inv cfg (get hooks st now okf t).1 ∧
    ((get hooks st now okf t).1.uses = st.uses ∨
      (∃ o, (get hooks st now okf t).1.uses =
        updU st.uses o (fun u => ⟨u.uses + 1, now, u.last_ret⟩)) ∨
      (get hooks st now okf t).1.uses =
        updU ((st.ncreated, ⟨0, now, now⟩) :: st.uses) st.ncreated
          (fun u => ⟨u.uses + 1, now, u.last_ret⟩)) := by
  obtain ⟨hA, hU, hAU, hAT, hUT, hC, hT, hS, hL, hFA, hFU, hFT, hUF⟩ := h
  rcases hsem : st.semTokens with _ | v
  · -- unbounded pool
    have hm0 : cfg.max_size = 0 := by
      by_contra hm
      rw [hS, if_neg hm] at hsem
      exact Option.noConfusion hsem
    rw [get_sem_none hooks st now okf t hsem]
    rcases hav : st.avail with _ | ⟨o, rest⟩
    · by_cases hok : okf st.ncreated = true
      · rw [getLocked_empty_ok hooks st now okf false (by rw [hav]; rfl) hok,
          getPop_cons hooks _ now st.ncreated st.avail rfl]
        refine ⟨inv_pop cfg _ st.ncreated st.avail now
          ?_ hU ?_ ?_ hUT ?_ ?_ ?_ ?_ ?_ ?_ ?_ ?_, Or.inr (Or.inr rfl)⟩
        · rw [hav]
          simp
        · intro x hx
          rcases List.mem_cons.mp hx with he | hx
          · subst he
            exact fun hm => absurd (hFU _ hm) (lt_irrefl _)
          · exact hAU x hx
        · intro x hx
          rcases List.mem_cons.mp hx with he | hx
          · subst he
            exact fun hm => absurd (hFT _ hm) (lt_irrefl _)
          · exact hAT x hx
        · show (st.ncreated :: st.avail).length + st.used.length = st.nobjs + 1
          simp only [List.length_cons]
          omega
        · show st.nobjs + 1 + st.todel.length + st.ndestroys = st.ncreated + 1
          omega
        · show st.semTokens = _
          rw [if_pos hm0]
          exact hsem
        · intro hm
          exact absurd hm0 hm
        · intro x hx
          show x < st.ncreated + 1
          rcases List.mem_cons.mp hx with he | hx
          · omega
          · exact lt_trans (hFA x hx) (Nat.lt_succ_self _)
        · intro x hx
          show x < st.ncreated + 1
          exact lt_trans (hFU x hx) (Nat.lt_succ_self _)
        · intro x hx
          show x < st.ncreated + 1
          exact lt_trans (hFT x hx) (Nat.lt_succ_self _)
        · intro p hp
          show p.1 < st.ncreated + 1
          rcases List.mem_cons.mp hp with he | hp
          · rw [he]
            exact Nat.lt_succ_self _
          · exact lt_trans (hUF p hp) (Nat.lt_succ_self _)
      · have hno : okf st.ncreated = false := by simpa using hok
        rw [getLocked_empty_fail hooks st now okf false (by rw [hav]; rfl) hno]
        exact ⟨inv_transport cfg st _
          ⟨hA, hU, hAU, hAT, hUT, hC, hT, hS, hL, hFA, hFU, hFT, hUF⟩
          rfl rfl rfl rfl rfl rfl rfl rfl, Or.inl rfl⟩
    · rw [getLocked_avail hooks st now okf false (by rw [hav]; rfl),
        getPop_cons hooks st now o rest hav]
      refine ⟨inv_pop cfg st o rest now
        (hav ▸ hA) hU (hav ▸ hAU) (hav ▸ hAT) hUT (hav ▸ hC) hT ?_ ?_
        (hav ▸ hFA) hFU hFT hUF, Or.inr (Or.inl ⟨o, rfl⟩)⟩
      · rw [if_pos hm0]
        exact hsem
      · intro hm
        exact absurd hm0 hm
  · rcases v with _ | v
    · -- bounded, no free token: TimeOut
      rw [get_sem_zero hooks st now okf t hsem]
      exact ⟨⟨hA, hU, hAU, hAT, hUT, hC, hT, hS, hL, hFA, hFU, hFT, hUF⟩, Or.inl rfl⟩
    · -- bounded, token taken
      have hm : cfg.max_size ≠ 0 := by
        intro hm0
        rw [hS, if_pos hm0] at hsem
        exact Option.noConfusion hsem
      have hv : v + 1 = cfg.max_size - st.used.length := by
        rw [hS, if_neg hm] at hsem
        exact (Option.some.inj hsem).symm
      have hle : st.used.length ≤ cfg.max_size := hL hm
      have hlt : st.used.length < cfg.max_size := by omega
      rcases hav : st.avail with _ | ⟨o, rest⟩
      · rw [get_sem_pos hooks st now okf t v hsem]
        by_cases hok : okf st.ncreated = true
        · rw [getLocked_empty_ok hooks { st with semTokens := some v } now okf true
            (by show st.avail.isEmpty = true; rw [hav]; rfl) hok,
            getPop_cons hooks _ now st.ncreated st.avail rfl]
          refine ⟨inv_pop cfg _ st.ncreated st.avail now
            ?_ hU ?_ ?_ hUT ?_ ?_ ?_ ?_ ?_ ?_ ?_ ?_, Or.inr (Or.inr rfl)⟩
          · rw [hav]
            simp
          · intro x hx
            rcases List.mem_cons.mp hx with he | hx
            · subst he
              exact fun hmem => absurd (hFU _ hmem) (lt_irrefl _)
            · exact hAU x hx
          · intro x hx
            rcases List.mem_cons.mp hx with he | hx
            · subst he
              exact fun hmem => absurd (hFT _ hmem) (lt_irrefl _)
            · exact hAT x hx
          · show (st.ncreated :: st.avail).length + st.used.length = st.nobjs + 1
            simp only [List.length_cons]
            omega
          · show st.nobjs + 1 + st.todel.length + st.ndestroys = st.ncreated + 1
            omega
          · show (some v : Option Nat) = if cfg.max_size = 0 then none
              else some (cfg.max_size - st.used.length - 1)
            rw [if_neg hm]
            congr 1
            omega
          · intro _
            exact hlt
          · intro x hx
            show x < st.ncreated + 1
            rcases List.mem_cons.mp hx with he | hx
            · omega
            · exact lt_trans (hFA x hx) (Nat.lt_succ_self _)
          · intro x hx
            show x < st.ncreated + 1
            exact lt_trans (hFU x hx) (Nat.lt_succ_self _)
          · intro x hx
            show x < st.ncreated + 1
            exact lt_trans (hFT x hx) (Nat.lt_succ_self _)
          · intro p hp
            show p.1 < st.ncreated + 1
            rcases List.mem_cons.mp hp with he | hp
            · rw [he]
              exact Nat.lt_succ_self _
            · exact lt_trans (hUF p hp) (Nat.lt_succ_self _)
        · have hno : okf st.ncreated = false := by simpa using hok
          rw [getLocked_empty_fail hooks { st with semTokens := some v } now okf true
            (by show st.avail.isEmpty = true; rw [hav]; rfl) hno]
          refine ⟨inv_transport cfg st _
            ⟨hA, hU, hAU, hAT, hUT, hC, hT, hS, hL, hFA, hFU, hFT, hUF⟩
            rfl rfl rfl rfl rfl rfl rfl ?_, Or.inl rfl⟩
          show Option.map (fun x => x + 1) (some v) = st.semTokens
          rw [hsem]
          rfl
      · rw [get_sem_pos hooks st now okf t v hsem,
          getLocked_avail hooks { st with semTokens := some v } now okf true
          (by show st.avail.isEmpty = false; rw [hav]; rfl),
          getPop_cons hooks { st with semTokens := some v } now o rest hav]
        refine ⟨inv_pop cfg _ o rest now
          (hav ▸ hA) hU (hav ▸ hAU) (hav ▸ hAT) hUT (hav ▸ hC) hT ?_ ?_
          (hav ▸ hFA) hFU hFT hUF, Or.inr (Or.inl ⟨o, rfl⟩)⟩
        · show (some v : Option Nat) = if cfg.max_size = 0 then none
            else some (cfg.max_size - st.used.length - 1)
          rw [if_neg hm]
          congr 1
          omega
        · intro _
          exact hlt

/-- `ret` is the locked section followed by `_empty` and `_fill` (the
`retter` hook is caught and cannot change that). -/
theorem ret_eq (hooks : Hooks) (cfg : PoolConfig) (st : PoolState) (o : Nat)
    (now : Int) (okf : Nat → Bool) :
    ret hooks cfg st o now okf =
      _fill hooks cfg (_empty (retLocked cfg st o now)) now okf := by
  unfold ret
  rw [hookCaught_ok]

/-- The locked section of `ret` on an object that is not in-use is a
complete no-op: the early return happens before the token release. -/
theorem retLocked_not_used (cfg : PoolConfig) (st : PoolState) (o : Nat) (now : Int)
    (ho : o ∉ st.used) : retLocked cfg st o now = st := by
  unfold retLocked
  rw [if_neg ho]

/-- The wear-out branch of the locked section of `ret`. -/
theorem retLocked_wear (cfg : PoolConfig) (st : PoolState) (o : Nat) (now : Int)
    (ho : o ∈ st.used)
    (hw : cfg.max_use ≠ 0 ∧ cfg.max_use ≤ (getU st.uses o).uses) :
    retLocked cfg st o now =
      { todelAdd (Out { st with nwornout := st.nwornout + 1 } o) o with
        semTokens :=
          (todelAdd (Out { st with nwornout := st.nwornout + 1 } o) o).semTokens.map
            (fun v => v + 1) } := by
  unfold retLocked
  rw [if_pos ho, if_pos hw]

/-- The return-to-available branch of the locked section of `ret`. -/
theorem retLocked_back (cfg : PoolConfig) (st : PoolState) (o : Nat) (now : Int)
    (ho : o ∈ st.used)
    (hw : ¬ (cfg.max_use ≠ 0 ∧ cfg.max_use ≤ (getU st.uses o).uses)) :
    retLocked cfg st o now =
      { st with
        used := st.used.erase o
        avail := o :: st.avail
        uses := updU st.uses o (fun u => ⟨u.uses, u.last_get, now⟩)
        semTokens := st.semTokens.map (fun v => v + 1) } := by
  unfold retLocked
  rw [if_pos ho, if_neg hw]

/-- The locked section of `ret` preserves the invariant; the surviving
uses entries keep their acquisition count. -/
theorem inv_retLocked (cfg : PoolConfig) (st : PoolState) (o : Nat) (now : Int)
    (h : Inv cfg st) :
    Inv cfg (retLocked cfg st o now) ∧
    (∀ x u2, lookupU (retLocked cfg st o now).uses x = some u2 →
      ∃ u1, lookupU st.uses x = some u1 ∧ u1.uses = u2.uses) ∧
    (retLocked cfg st o now).ncreated = st.ncreated := by
  by_cases ho : o ∈ st.used
  · by_cases hw : cfg.max_use ≠ 0 ∧ cfg.max_use ≤ (getU st.uses o).uses
    · rw [retLocked_wear cfg st o now ho hw]
      have hInv2 : Inv cfg { st with nwornout := st.nwornout + 1 } :=
        inv_transport cfg st _ h rfl rfl rfl rfl rfl rfl rfl rfl
      obtain ⟨hB, _, _, _, _, hBc, _⟩ :=
        inv_retire_used cfg { st with nwornout := st.nwornout + 1 } o hInv2 ho _ rfl
      refine ⟨hB, ?_, hBc⟩
      intro x u2 hx
      have : lookupU (delU st.uses o) x = some u2 := hx
      rw [lookupU_delU] at this
      by_cases hxo : x = o
      · rw [if_pos hxo] at this
        exact Option.noConfusion this
      · rw [if_neg hxo] at this
        exact ⟨u2, this, rfl⟩
    · rw [retLocked_back cfg st o now ho hw]
      refine ⟨?_, ?_, rfl⟩
      · refine inv_transport_uses cfg (_return st o) _
          (inv_return cfg st o h ho).1 rfl rfl rfl ?_ rfl rfl rfl rfl
        intro p hp
        obtain ⟨q, hq, hpq⟩ := mem_updU _ _ _ _ hp
        exact ⟨q, hq, hpq⟩
      · intro x u2 hx
        have : lookupU (updU st.uses o (fun u => ⟨u.uses, u.last_get, now⟩)) x =
            some u2 := hx
        rw [lookupU_updU] at this
        by_cases hxo : x = o
        · rw [if_pos hxo] at this
          rcases hlk : lookupU st.uses x with _ | u1
          · rw [hlk] at this
            exact Option.noConfusion this
          · rw [hlk] at this
            refine ⟨u1, rfl, ?_⟩
            have hu2 : u2 = ⟨u1.uses, u1.last_get, now⟩ := by
              have := Option.some.inj this
              exact this.symm
            rw [hu2]
        · rw [if_neg hxo] at this
          exact ⟨u2, this, rfl⟩
  · rw [retLocked_not_used cfg st o now ho]
    exact ⟨h, fun x u2 hx => ⟨u2, hx, rfl⟩, rfl⟩

/-- `ret` preserves the invariant. -/
theorem inv_ret (hooks : Hooks) (cfg : PoolConfig) (st : PoolState) (o : Nat)
    (now : Int) (okf : Nat → Bool) (h : Inv cfg st) :
    Inv cfg (ret hooks cfg st o now okf) := by
  rw [ret_eq]
  exact (inv_fill hooks cfg _ now okf
    (inv_empty cfg _ (inv_retLocked cfg st o now h).1)).1

/-- One step of the borrow-age kill sweep preserves the invariant,
given that the visited object is in-use when visited. -/
theorem inv_killStep (cfg : PoolConfig) (now : Int) (st : PoolState) (o : Nat)
    (h : Inv cfg st) (ho : o ∈ st.used) :
    Inv cfg (killStep cfg now st o) ∧
    ((killStep cfg now st o).used = st.used ∨
      (killStep cfg now st o).used = st.used.erase o) := by
  unfold killStep
  by_cases hfire : cfg.max_using_delay_kill ≠ 0 ∧
      cfg.max_using_delay_kill ≤ now - (getU st.uses o).last_get
  · rw [if_pos hfire]
    have hInv2 : Inv cfg { st with nkilled := st.nkilled + 1 } :=
      inv_transport cfg st _ h rfl rfl rfl rfl rfl rfl rfl rfl
    obtain ⟨hB, _, hBu, _, _, _, _⟩ :=
      inv_retire_used cfg { st with nkilled := st.nkilled + 1 } o hInv2 ho _ rfl
    exact ⟨hB, Or.inr hBu⟩
  · rw [if_neg hfire]
    exact ⟨h, Or.inl rfl⟩

/-- The borrow-age kill fold preserves the invariant when run over a
duplicate-free snapshot of in-use objects. -/
theorem inv_killFold (cfg : PoolConfig) (now : Int) :
    ∀ (l : List Nat) (st : PoolState), Inv cfg st → l.Nodup →
      (∀ x ∈ l, x ∈ st.used) →
      Inv cfg (l.foldl (killStep cfg now) st) := by
  intro l
  induction l with
  | nil =>
    intro st h _ _
    exact h
  | cons x rest ih =>
    intro st h hnd hsub
    show Inv cfg (rest.foldl (killStep cfg now) (killStep cfg now st x))
    obtain ⟨hnx, hndr⟩ := List.nodup_cons.mp hnd
    have hx : x ∈ st.used := hsub x (List.mem_cons_self _ _)
    obtain ⟨h2, hcase⟩ := inv_killStep cfg now st x h hx
    refine ih _ h2 hndr ?_
    intro y hy
    have hyu : y ∈ st.used := hsub y (List.mem_cons_of_mem _ hy)
    have hyx : y ≠ x := fun he => hnx (he ▸ hy)
    rcases hcase with he | he
    · rw [he]
      exact hyu
    · rw [he]
      exact (List.mem_erase_of_ne hyx).mpr hyu

/-- The borrow-age sweep preserves the invariant. -/
theorem inv_killPhase (cfg : PoolConfig) (st : PoolState) (now : Int)
    (h : Inv cfg st) : Inv cfg (killPhase cfg st now) := by
  unfold killPhase
  by_cases hw : warnDelay cfg ≠ 0
  · rw [if_pos hw]
    exact inv_killFold cfg now st.used st h h.2.1 (fun x hx => hx)
  · rw [if_neg hw]
    exact h

/-- The idle sweep loop preserves the invariant when run over a
duplicate-free snapshot of available objects. -/
theorem inv_idleLoop (cfg : PoolConfig) (now : Int) :
    ∀ (l : List Nat) (st : PoolState), Inv cfg st → l.Nodup →
      (∀ x ∈ l, x ∈ st.avail) →
      Inv cfg (idleLoop cfg now l st) := by
  intro l
  induction l with
  | nil =>
    intro st h _ _
    exact h
  | cons x rest ih =>
    intro st h hnd hsub
    obtain ⟨hnx, hndr⟩ := List.nodup_cons.mp hnd
    have hx : x ∈ st.avail := hsub x (List.mem_cons_self _ _)
    have hInv2 : Inv cfg { st with nrecycled := st.nrecycled + 1 } :=
      inv_transport cfg st _ h rfl rfl rfl rfl rfl rfl rfl rfl
    unfold idleLoop
    by_cases hfire : cfg.max_avail_delay ≤ now - (getU st.uses x).last_ret
    · rw [if_pos hfire]
      obtain ⟨hB, hBa, _⟩ :=
        inv_retire_avail cfg { st with nrecycled := st.nrecycled + 1 } x hInv2 hx
      by_cases hstop :
          (todelAdd (Out { st with nrecycled := st.nrecycled + 1 } x) x).nobjs ≤
            cfg.min_size
      · rw [if_pos hstop]
        exact hB
      · rw [if_neg hstop]
        refine ih _ hB hndr ?_
        intro y hy
        rw [hBa]
        have hya : y ∈ st.avail := hsub y (List.mem_cons_of_mem _ hy)
        have hyx : y ≠ x := fun he => hnx (he ▸ hy)
        exact (List.mem_erase_of_ne hyx).mpr hya
    · rw [if_neg hfire]
      refine ih _ h hndr ?_
      intro y hy
      exact hsub y (List.mem_cons_of_mem _ hy)

/-- The idle sweep preserves the invariant. -/
theorem inv_idlePhase (cfg : PoolConfig) (st : PoolState) (now : Int)
    (h : Inv cfg st) : Inv cfg (idlePhase cfg st now) := by
  unfold idlePhase
  by_cases hg : cfg.max_avail_delay ≠ 0 ∧ cfg.min_size < st.nobjs
  · rw [if_pos hg]
    exact inv_idleLoop cfg now st.avail st h h.1 (fun x hx => hx)
  · rw [if_neg hg]
    exact h

/-- `_hkRound` preserves the invariant. -/
theorem inv_hkRound (cfg : PoolConfig) (st : PoolState) (now : Int)
    (h : Inv cfg st) : Inv cfg (_hkRound cfg st now) := by
  unfold _hkRound
  exact inv_idlePhase cfg _ now (inv_killPhase cfg _ now
    (inv_transport cfg st _ h rfl rfl rfl rfl rfl rfl rfl rfl))

/-- One health-check iteration preserves the invariant (a failed
borrow skips the object). -/
theorem inv_healthStep (cfg : PoolConfig) (hres : Nat → Option Bool)
    (st : PoolState) (o : Nat) (h : Inv cfg st) :
    Inv cfg (healthStep hres st o) := by
  unfold healthStep
  rcases hb : _borrow st o with _ | st1
  · exact h
  · obtain ⟨h1, ho, eA, eU, eT, eUs, eN, eC, eD, eS⟩ := inv_borrow cfg st o st1 h hb
    rcases hro : hres o with _ | b
    · have h2 : Inv cfg { st1 with
          nhealth := st1.nhealth + 1, hc_errors := st1.hc_errors + 1 } :=
        inv_transport cfg st1 _ h1 rfl rfl rfl rfl rfl rfl rfl rfl
      have ho2 : o ∈ ({ st1 with
          nhealth := st1.nhealth + 1, hc_errors := st1.hc_errors + 1 } :
          PoolState).used := by
        show o ∈ st1.used
        rw [eU]
        exact List.mem_cons_self _ _
      exact (inv_return cfg _ o h2 ho2).1
    · rcases b with _ | _
      · -- unhealthy: return, then retire from available
        have h2 : Inv cfg { st1 with nhealth := st1.nhealth + 1 } :=
          inv_transport cfg st1 _ h1 rfl rfl rfl rfl rfl rfl rfl rfl

        have ho2 : o ∈ ({ st1 with nhealth := st1.nhealth + 1 } : PoolState).used := by
          show o ∈ st1.used
          rw [eU]
          exact List.mem_cons_self _ _
        obtain ⟨h4, hRa, _⟩ := inv_return cfg _ o h2 ho2
        have h5 : Inv cfg { _return { st1 with nhealth := st1.nhealth + 1 } o with
            bad_health :=
              (_return { st1 with nhealth := st1.nhealth + 1 } o).bad_health + 1 } :=
          inv_transport cfg _ _ h4 rfl rfl rfl rfl rfl rfl rfl rfl
        have ho5 : o ∈ ({ _return { st1 with nhealth := st1.nhealth + 1 } o with
            bad_health :=
              (_return { st1 with nhealth := st1.nhealth + 1 } o).bad_health + 1 } :
            PoolState).avail := by
          show o ∈ (_return { st1 with nhealth := st1.nhealth + 1 } o).avail
          rw [hRa]
          exact List.mem_cons_self _ _
        exact (inv_retire_avail cfg _ o h5 ho5).1
      · -- healthy: just return
        have h2 : Inv cfg { st1 with nhealth := st1.nhealth + 1 } :=
          inv_transport cfg st1 _ h1 rfl rfl rfl rfl rfl rfl rfl rfl
        have ho2 : o ∈ ({ st1 with nhealth := st1.nhealth + 1 } : PoolState).used := by
          show o ∈ st1.used
          rw [eU]
          exact List.mem_cons_self _ _
        exact (inv_return cfg _ o h2 ho2).1

/-- The health-check fold preserves the invariant. -/
theorem inv_healthFold (cfg : PoolConfig) (hres : Nat → Option Bool) :
    ∀ (l : List Nat) (st : PoolState), Inv cfg st →
      Inv cfg (l.foldl (healthStep hres) st) := by
  intro l
  induction l with
  | nil =>
    intro st h
    exact h
  | cons x rest ih =>
    intro st h
    exact ih _ (inv_healthStep cfg hres st x h)

/-- `_health_check` preserves the invariant. -/
theorem inv_health (cfg : PoolConfig) (hres : Nat → Option Bool) (st : PoolState)
    (h : Inv cfg st) : Inv cfg (_health_check hres st) := by
  unfold _health_check
  exact inv_healthFold cfg hres _ _
    (inv_transport cfg st _ h rfl rfl rfl rfl rfl rfl rfl rfl)

/-- Every pool operation preserves the invariant. -/
theorem inv_step (hooks : Hooks) (cfg : PoolConfig) (st st2 : PoolState)
    (h : Inv cfg st) (hs : Step hooks cfg st st2) : Inv cfg st2 := by
  cases hs with
  | stepGet now okf t => exact (inv_get hooks cfg st now okf t h).1
  | stepRet o now okf => exact inv_ret hooks cfg st o now okf h
  | stepHk now => exact inv_hkRound cfg st now h
  | stepHealth hres => exact inv_health cfg hres st h
  | stepEmpty => exact inv_empty cfg st h
  | stepFill now okf => exact (inv_fill hooks cfg st now okf h).1
  | stepBorrow o st3 hb => exact (inv_borrow cfg st o st2 h hb).1
  | stepReturn o ho => exact (inv_return cfg st o h ho).1

/-- Every reachable pool state satisfies the invariant. -/
theorem inv_reach (hooks : Hooks) (cfg : PoolConfig) (st : PoolState)
    (h : Reach hooks cfg st) : Inv cfg st := by
  induction h with
  | init now okf => exact inv_mk hooks cfg now okf
  | next st st2 _ hs ih => exact inv_step hooks cfg st st2 ih hs

/-! ## Support lemmas for the claim theorems -/

theorem empty_avail (st : PoolState) : (_empty st).avail = st.avail := by
  unfold _empty
  split <;> rfl

theorem empty_used (st : PoolState) : (_empty st).used = st.used := by
  unfold _empty
  split <;> rfl

theorem empty_uses (st : PoolState) : (_empty st).uses = st.uses := by
  unfold _empty
  split <;> rfl

theorem empty_ncreated (st : PoolState) : (_empty st).ncreated = st.ncreated := by
  unfold _empty
  split <;> rfl

theorem empty_sem (st : PoolState) : (_empty st).semTokens = st.semTokens := by
  unfold _empty
  split <;> rfl

theorem Out_nobjs_ge (st : PoolState) (o : Nat) : st.nobjs - 1 ≤ (Out st o).nobjs := by
  show st.nobjs - 1 ≤
    if (lookupU st.uses o).isSome ∨ o ∈ st.avail ∨ o ∈ st.used then st.nobjs - 1
    else st.nobjs
  split <;> omega

/-- Shape of a successful internal borrow. -/
theorem borrow_shape (st : PoolState) (x : Nat) (st1 : PoolState)
    (hb : _borrow st x = some st1) :
    x ∈ st.avail ∧
    st1 = { st with
            semTokens := st.semTokens.map (fun v => v - 1)
            avail := st.avail.erase x
            used := x :: st.used
            nborrows := st.nborrows + 1 } ∧
    (st.semTokens = none ∨ ∃ v, st.semTokens = some (v + 1)) := by
  unfold _borrow at hb
  rcases hsem : st.semTokens with _ | v
  · rw [hsem] at hb
    by_cases ho : x ∈ st.avail
    · simp only [ho, if_pos] at hb
      exact ⟨ho, by cases hb; simp [hsem], Or.inl rfl⟩
    · simp [ho] at hb
  · rcases v with _ | v
    · rw [hsem] at hb
      simp at hb
    · rw [hsem] at hb
      by_cases ho : x ∈ st.avail
      · simp only [ho, if_pos] at hb
        exact ⟨ho, by cases hb; simp [hsem], Or.inr ⟨v, rfl⟩⟩
      · simp [ho] at hb

/-! ## Concrete fixtures -/

/-- No hooks installed. -/
def hooks0 : Hooks := ⟨none, none, none, none⟩

/-- All four hooks installed and always raising. -/
def hooksAll : Hooks :=
  ⟨some (fun _ => true), some (fun _ => true), some (fun _ => true),
    some (fun _ => true)⟩

/-- A factory that always succeeds. -/
def okAll : Nat → Bool := fun _ => true

/-- A factory that always raises. -/
def okNone : Nat → Bool := fun _ => false

/-! ## C1 -/

def cfgC1 : PoolConfig := ⟨1, 2, none, 0, 0, 0, 0⟩

/-- C1 (counterexample): a pool constructed with `max_size = 1` and
`min_size = 2` finishes its initial `_fill` with 2 live objects — the
refill loop releases its token right after each creation, so the
claimed bound `live ≤ max_size` fails as soon as `min_size > max_size`. -/
theorem C1_counterexample :
    ¬ ((mkPool hooks0 cfgC1 0 okAll).nobjs ≤ cfgC1.max_size) := by decide

/-- C1 (amended): on a bounded pool, every reachable state keeps the
number of in-use objects (callers' borrows, internal health borrows
and in-flight `get` creations all hold a token) within `max_size`, and
the free token count is exactly `max_size` minus the in-use count; the
total live count is *not* so bounded (see the counterexample). -/
theorem C1_capacity_gate (hooks : Hooks) (cfg : PoolConfig) (st : PoolState)
    (hm : cfg.max_size ≠ 0) (hr : Reach hooks cfg st) :
    st.used.length ≤ cfg.max_size ∧
    st.semTokens = some (cfg.max_size - st.used.length) := by
  obtain ⟨_, _, _, _, _, _, _, hS, hL, _⟩ := inv_reach hooks cfg st hr
  exact ⟨hL hm, by rw [hS, if_neg hm]⟩

theorem C1_capacity_gate_witness :
    (mkPool hooks0 cfgC1 0 okAll).used.length ≤ cfgC1.max_size ∧
    (mkPool hooks0 cfgC1 0 okAll).semTokens =
      some (cfgC1.max_size - (mkPool hooks0 cfgC1 0 okAll).used.length) :=
  C1_capacity_gate hooks0 cfgC1 _ (by decide) (Reach.init 0 okAll)

/-! ## C2 -/

def cfgC2 : PoolConfig := ⟨1, 0, none, 0, 0, 0, 0⟩

def c2st : PoolState := mkPool hooks0 cfgC2 0 okAll

/-- C2 (code bug, witnessed): with a body that raises, `Pool.obj`
stops at the `yield` — the generator never reaches `self.ret(o)` — so
the object stays in-use and its capacity token stays consumed; the
same happens through `Proxy._obj`, which additionally leaves the
context-local slot bound. -/
theorem C2_ctx_no_release_on_exception :
    objCtx hooks0 cfgC2 c2st 0 okAll none (fun _ => true) =
      CtxResult.bodyRaised (get hooks0 c2st 0 okAll none).1 ∧
    (get hooks0 c2st 0 okAll none).1.used = [0] ∧
    (get hooks0 c2st 0 okAll none).1.semTokens = some 0 ∧
    proxyObjCtx hooks0 cfgC2 ⟨c2st, none⟩ 0 okAll none (fun _ => true) =
      ProxyCtxResult.bodyRaised ⟨(get hooks0 c2st 0 okAll none).1, some 0⟩ := by
  decide

/-! ## C3 -/

theorem idleLoop_floor (cfg : PoolConfig) (now : Int) :
    ∀ (l : List Nat) (st : PoolState), cfg.min_size < st.nobjs →
      cfg.min_size ≤ (idleLoop cfg now l st).nobjs := by
  intro l
  induction l with
  | nil =>
    intro st h
    exact le_of_lt h
  | cons o rest ih =>
    intro st h
    unfold idleLoop
    by_cases hfire : cfg.max_avail_delay ≤ now - (getU st.uses o).last_ret
    · rw [if_pos hfire]
      have hge : st.nobjs - 1 ≤
          (todelAdd (Out { st with nrecycled := st.nrecycled + 1 } o) o).nobjs := by
        show st.nobjs - 1 ≤ (Out { st with nrecycled := st.nrecycled + 1 } o).nobjs
        exact Out_nobjs_ge { st with nrecycled := st.nrecycled + 1 } o
      by_cases hstop :
          (todelAdd (Out { st with nrecycled := st.nrecycled + 1 } o) o).nobjs ≤
            cfg.min_size
      · rw [if_pos hstop]
        omega
      · rw [if_neg hstop]
        exact ih _ (by omega)
    · rw [if_neg hfire]
      exact ih _ h

def cfgC3 : PoolConfig := ⟨0, 1, none, 0, 5, 0, 0⟩

def c3a : PoolState := mkPool hooks0 cfgC3 0 okAll
def c3b : PoolState := (get hooks0 c3a 0 okAll none).1
def c3c : PoolState := (get hooks0 c3b 0 okAll none).1
def c3d : PoolState := (get hooks0 c3c 0 okAll none).1
def c3e : PoolState := ret hooks0 cfgC3 c3d 1 0 okAll
def c3f : PoolState := ret hooks0 cfgC3 c3e 2 0 okAll

/-- C3 (counterexample): a pool with `min_size = 1`, one in-use object
and two stale available objects: the idle sweep retires both available
objects (the floor `self._nobjs > self._min_size` counts the in-use
object), leaving 0 available — strictly below `min_size`. -/
theorem C3_counterexample :
    cfgC3.max_avail_delay ≠ 0 ∧
    c3f.avail.length = 2 ∧ c3f.used.length = 1 ∧ c3f.nobjs = 3 ∧
    (_hkRound cfgC3 c3f 10).avail.length < cfgC3.min_size := by
  decide

/-- C3 (amended): the idle sweep never lowers the *total live-object
count* (`_nobjs` = available + in-use) below `min_size`; the available
count alone can end below `min_size` when in-use objects exist (see
the counterexample). -/
theorem C3_idle_floor (cfg : PoolConfig) (st : PoolState) (now : Int) :
    min st.nobjs cfg.min_size ≤ (idlePhase cfg st now).nobjs := by
  unfold idlePhase
  by_cases hg : cfg.max_avail_delay ≠ 0 ∧ cfg.min_size < st.nobjs
  · rw [if_pos hg]
    exact le_trans (min_le_right _ _) (idleLoop_floor cfg now st.avail st hg.2)
  · rw [if_neg hg]
    exact min_le_left _ _

/-! ## C4 -/

/-- C4: in every reachable pool state, available + in-use equals the
live-object count, and live + pending-destruction + destroyed equals
the number of successful creations; when pending-destruction is
drained, live = created − destroyed. -/
theorem C4_conservation (hooks : Hooks) (cfg : PoolConfig) (st : PoolState)
    (hr : Reach hooks cfg st) :
    st.avail.length + st.used.length = st.nobjs ∧
    st.nobjs + st.todel.length + st.ndestroys = st.ncreated ∧
    (st.todel = [] → st.nobjs = st.ncreated - st.ndestroys) := by
  obtain ⟨_, _, _, _, _, hC, hT, _⟩ := inv_reach hooks cfg st hr
  refine ⟨hC, hT, ?_⟩
  intro he
  rw [he] at hT
  simp only [List.length_nil] at hT
  omega

def cfgC4 : PoolConfig := ⟨2, 1, none, 0, 0, 0, 0⟩

theorem C4_conservation_witness :
    (mkPool hooks0 cfgC4 0 okAll).avail.length +
        (mkPool hooks0 cfgC4 0 okAll).used.length =
      (mkPool hooks0 cfgC4 0 okAll).nobjs :=
  (C4_conservation hooks0 cfgC4 _ (Reach.init 0 okAll)).1

/-! ## C5 -/

def cfgC5 : PoolConfig := ⟨1, 0, none, 0, 0, 0, 0⟩

def c5a : PoolState := mkPool hooks0 cfgC5 0 okAll
def c5b : PoolState := (get hooks0 c5a 0 okAll none).1
def c5c : PoolState := ret hooks0 cfgC5 c5b 0 3 okAll

/-- C5 (counterexample): after a get/ret cycle on a `max_size = 1`
pool the free token count is 1; a second (double) `ret` of the same
object returns early — before the semaphore release — and leaves the
state exactly unchanged, not raising the token count to 2 as the claim
("releases one capacity token regardless of outcome") would demand. -/
theorem C5_counterexample :
    (0 ∉ c5c.used) ∧ c5c.semTokens = some 1 ∧
    ret hooks0 cfgC5 c5c 0 7 okAll = c5c ∧
    ¬ ((ret hooks0 cfgC5 c5c 0 7 okAll).semTokens = some 2) := by
  decide

/-- C5 (amended): the locked section of `ret` on an object that is not
in-use is a complete no-op (sets, counters and semaphore untouched);
one token is released exactly on the paths where the object was
in-use, wear-out retirement included. -/
theorem C5_ret_noop_and_token (cfg : PoolConfig) (st : PoolState) (o : Nat)
    (now : Int) :
    (o ∉ st.used → retLocked cfg st o now = st) ∧
    (o ∈ st.used →
      (retLocked cfg st o now).semTokens = st.semTokens.map (fun v => v + 1)) := by
  constructor
  · intro ho
    exact retLocked_not_used cfg st o now ho
  · intro ho
    by_cases hw : cfg.max_use ≠ 0 ∧ cfg.max_use ≤ (getU st.uses o).uses
    · rw [retLocked_wear cfg st o now ho hw]
      rfl
    · rw [retLocked_back cfg st o now ho hw]

theorem C5_ret_noop_witness :
    retLocked cfgC5 c5c 0 7 = c5c ∧
    (retLocked cfgC5 c5b 0 3).semTokens = c5b.semTokens.map (fun v => v + 1) :=
  ⟨(C5_ret_noop_and_token cfgC5 c5c 0 7).1 (by decide),
   (C5_ret_noop_and_token cfgC5 c5b 0 3).2 (by decide)⟩

/-! ## C10 -/

theorem getPop_no_timeout (hooks : Hooks) (st : PoolState) (now : Int) :
    (getPop hooks st now).2 ≠ Except.error PoolErr.timeout := by
  rcases ha : st.avail with _ | ⟨o, rest⟩
  · unfold getPop
    rw [ha]
    intro he
    exact PoolErr.noConfusion (Except.error.inj he)
  · rw [getPop_cons hooks st now o rest ha]
    intro he
    exact Except.noConfusion he

theorem getLocked_no_timeout (hooks : Hooks) (st : PoolState) (now : Int)
    (okf : Nat → Bool) (b : Bool) :
    (getLocked hooks st now okf b).2 ≠ Except.error PoolErr.timeout := by
  by_cases hav : st.avail.isEmpty = true
  · by_cases hok : okf st.ncreated = true
    · rw [getLocked_empty_ok hooks st now okf b hav hok]
      exact getPop_no_timeout hooks _ now
    · have hno : okf st.ncreated = false := by simpa using hok
      rw [getLocked_empty_fail hooks st now okf b hav hno]
      intro he
      exact PoolErr.noConfusion (Except.error.inj he)
  · have hne : st.avail.isEmpty = false := by simpa using hav
    rw [getLocked_avail hooks st now okf b hne]
    exact getPop_no_timeout hooks st now

/-- C10: on an unbounded pool (`max_size = 0`) there is no semaphore,
so `get` never raises `TimeOut`, and the timeout argument is ignored —
the result is the same for any two timeout values; `get` pops an
available object or synchronously attempts a creation (whose failure
is the only possible error). -/
theorem C10_unbounded_get_no_timeout (hooks : Hooks) (cfg : PoolConfig)
    (st : PoolState) (now : Int) (okf : Nat → Bool)
    (h : Inv cfg st) (hm : cfg.max_size = 0) :
    ∀ t1 t2 : Option Int,
      get hooks st now okf t1 = get hooks st now okf t2 ∧
      (get hooks st now okf t1).2 ≠ Except.error PoolErr.timeout := by
  obtain ⟨_, _, _, _, _, _, _, hS, _⟩ := h
  have hsem : st.semTokens = none := by rw [hS, if_pos hm]
  intro t1 t2
  rw [get_sem_none hooks st now okf t1 hsem, get_sem_none hooks st now okf t2 hsem]
  exact ⟨rfl, getLocked_no_timeout hooks st now okf false⟩

def cfgC10 : PoolConfig := ⟨0, 1, none, 0, 0, 0, 0⟩

theorem C10_unbounded_get_no_timeout_witness :
    get hooks0 (mkPool hooks0 cfgC10 0 okAll) 3 okAll none =
      get hooks0 (mkPool hooks0 cfgC10 0 okAll) 3 okAll (some 5) ∧
    (get hooks0 (mkPool hooks0 cfgC10 0 okAll) 3 okAll none).2 ≠
      Except.error PoolErr.timeout :=
  C10_unbounded_get_no_timeout hooks0 cfgC10 (mkPool hooks0 cfgC10 0 okAll) 3 okAll
    (by unfold Inv; decide) (by decide) none (some 5)

/-! ## C6 -/

theorem new_hooks_eq (hooksA hooksB : Hooks) (st : PoolState) (now : Int)
    (okf : Nat → Bool) : _new hooksA st now okf = _new hooksB st now okf := by
  by_cases hok : okf st.ncreated = true
  · rw [new_ok hooksA st now okf hok, new_ok hooksB st now okf hok]
  · have hno : okf st.ncreated = false := by simpa using hok
    rw [new_fail hooksA st now okf hno, new_fail hooksB st now okf hno]

theorem fillIter_hooks_eq (hooksA hooksB : Hooks) (now : Int) (okf : Nat → Bool) :
    ∀ (k : Nat) (st : PoolState),
      fillIter hooksA now okf k st = fillIter hooksB now okf k st := by
  intro k
  induction k with
  | zero =>
    intro st
    rfl
  | succ k ih =>
    intro st
    show (match st.semTokens with
      | some 0 => st
      | some (v + 1) =>
        fillIter hooksA now okf k
          { (_new hooksA { st with semTokens := some v } now okf).1 with
            semTokens :=
              ((_new hooksA { st with semTokens := some v } now okf).1.semTokens).map
                (fun x => x + 1) }
      | none => fillIter hooksA now okf k (_new hooksA st now okf).1) =
      (match st.semTokens with
      | some 0 => st
      | some (v + 1) =>
        fillIter hooksB now okf k
          { (_new hooksB { st with semTokens := some v } now okf).1 with
            semTokens :=
              ((_new hooksB { st with semTokens := some v } now okf).1.semTokens).map
                (fun x => x + 1) }
      | none => fillIter hooksB now okf k (_new hooksB st now okf).1)
    rcases st.semTokens with _ | v
    · show fillIter hooksA now okf k (_new hooksA st now okf).1 =
        fillIter hooksB now okf k (_new hooksB st now okf).1
      rw [new_hooks_eq hooksA hooksB st now okf, ih]
    · rcases v with _ | v
      · rfl
      · show fillIter hooksA now okf k
            { (_new hooksA { st with semTokens := some v } now okf).1 with
              semTokens :=
                ((_new hooksA { st with semTokens := some v } now okf).1.semTokens).map
                  (fun x => x + 1) } =
          fillIter hooksB now okf k
            { (_new hooksB { st with semTokens := some v } now okf).1 with
              semTokens :=
                ((_new hooksB { st with semTokens := some v } now okf).1.semTokens).map
                  (fun x => x + 1) }
        rw [new_hooks_eq hooksA hooksB { st with semTokens := some v } now okf, ih]

theorem fill_hooks_eq (hooksA hooksB : Hooks) (cfg : PoolConfig) (st : PoolState)
    (now : Int) (okf : Nat → Bool) :
    _fill hooksA cfg st now okf = _fill hooksB cfg st now okf := by
  unfold _fill
  by_cases hlt : st.nobjs < cfg.min_size
  · rw [if_pos hlt, if_pos hlt, fillIter_hooks_eq]
  · rw [if_neg hlt, if_neg hlt]

theorem getPop_hooks_eq (hooksA hooksB : Hooks) (st : PoolState) (now : Int) :
    getPop hooksA st now = getPop hooksB st now := by
  rcases ha : st.avail with _ | ⟨o, rest⟩
  · unfold getPop
    rw [ha]
  · rw [getPop_cons hooksA st now o rest ha, getPop_cons hooksB st now o rest ha]

theorem getLocked_hooks_eq (hooksA hooksB : Hooks) (st : PoolState) (now : Int)
    (okf : Nat → Bool) (b : Bool) :
    getLocked hooksA st now okf b = getLocked hooksB st now okf b := by
  by_cases hav : st.avail.isEmpty = true
  · by_cases hok : okf st.ncreated = true
    · rw [getLocked_empty_ok hooksA st now okf b hav hok,
        getLocked_empty_ok hooksB st now okf b hav hok, getPop_hooks_eq]
    · have hno : okf st.ncreated = false := by simpa using hok
      rw [getLocked_empty_fail hooksA st now okf b hav hno,
        getLocked_empty_fail hooksB st now okf b hav hno]
  · have hne : st.avail.isEmpty = false := by simpa using hav
    rw [getLocked_avail hooksA st now okf b hne,
      getLocked_avail hooksB st now okf b hne, getPop_hooks_eq]

theorem get_hooks_eq (hooksA hooksB : Hooks) (st : PoolState) (now : Int)
    (okf : Nat → Bool) (t : Option Int) :
    get hooksA st now okf t = get hooksB st now okf t := by
  rcases hsem : st.semTokens with _ | v
  · rw [get_sem_none hooksA st now okf t hsem,
      get_sem_none hooksB st now okf t hsem, getLocked_hooks_eq]
  · rcases v with _ | v
    · rw [get_sem_zero hooksA st now okf t hsem,
        get_sem_zero hooksB st now okf t hsem]
    · rw [get_sem_pos hooksA st now okf t v hsem,
        get_sem_pos hooksB st now okf t v hsem, getLocked_hooks_eq]

/-- C6 (amended): the `opener`/`getter`/`retter`/`closer` hooks are
invoked under `try`/`except` so a caught hook call never yields an
error, and the outcome of `get` and `ret` (state and result) is
entirely independent of what those hooks do; the create factory's
failure does propagate out of `get`. The describe/stats hook is the
exception: `__stats_data` calls it bare, so its exceptions escape
`stats()` (see the counterexample). -/
theorem C6_hook_isolation (hooksA hooksB : Hooks) (st : PoolState) (now : Int)
    (okf : Nat → Bool) (t : Option Int) (o : Nat) (cfg : PoolConfig) :
    (∀ h : Option (Nat → Bool), hookCaught h o = Except.ok ()) ∧
    get hooksA st now okf t = get hooksB st now okf t ∧
    ret hooksA cfg st o now okf = ret hooksB cfg st o now okf ∧
    (st.semTokens = none → st.avail = [] → okf st.ncreated = false →
      (get hooksA st now okf t).2 = Except.error PoolErr.creation) := by
  refine ⟨fun h => hookCaught_ok h o, get_hooks_eq hooksA hooksB st now okf t,
    ?_, ?_⟩
  · rw [ret_eq, ret_eq, fill_hooks_eq]
  · intro hsem hav hno
    rw [get_sem_none hooksA st now okf t hsem,
      getLocked_empty_fail hooksA st now okf false (by rw [hav]; rfl) hno]

def cfgC6 : PoolConfig := ⟨0, 1, none, 0, 0, 0, 0⟩

def c6st : PoolState := mkPool hooks0 cfgC6 0 okAll

/-- C6 (counterexample): a raising stats hook on a pool with one
available object propagates out of the per-object stats construction
(`__stats_data` has no `try`/`except`), so `stats()` raises to its
caller instead of suppressing the hook error. -/
theorem C6_counterexample :
    statsCall (some (fun _ => none)) c6st = Except.error PoolErr.hookErr := by
  rfl

theorem C6_hook_isolation_witness :
    get hooks0 (initState cfgC6) 0 okNone none =
      get hooksAll (initState cfgC6) 0 okNone none ∧
    ret hooks0 cfgC6 c6st 0 0 okAll = ret hooksAll cfgC6 c6st 0 0 okAll ∧
    (get hooks0 (initState cfgC6) 0 okNone none).2 =
      Except.error PoolErr.creation :=
  ⟨(C6_hook_isolation hooks0 hooksAll (initState cfgC6) 0 okNone none 0 cfgC6).2.1,
   (C6_hook_isolation hooks0 hooksAll c6st 0 okAll none 0 cfgC6).2.2.1,
   (C6_hook_isolation hooks0 hooksAll (initState cfgC6) 0 okNone none 0 cfgC6).2.2.2
     rfl rfl rfl⟩

/-! ## C7 -/

theorem lookupU_delU_narrow (l : List (Nat × UseInfo)) (x y : Nat) (u : UseInfo)
    (h : lookupU (delU l x) y = some u) : lookupU l y = some u := by
  rw [lookupU_delU] at h
  by_cases hyx : y = x
  · rw [if_pos hyx] at h
    exact Option.noConfusion h
  · rw [if_neg hyx] at h
    exact h

theorem killStep_uses (cfg : PoolConfig) (now : Int) (st : PoolState) (x y : Nat)
    (u : UseInfo) (h : lookupU (killStep cfg now st x).uses y = some u) :
    lookupU st.uses y = some u := by
  unfold killStep at h
  by_cases hfire : cfg.max_using_delay_kill ≠ 0 ∧
      cfg.max_using_delay_kill ≤ now - (getU st.uses x).last_get
  · rw [if_pos hfire] at h
    exact lookupU_delU_narrow st.uses x y u h
  · rw [if_neg hfire] at h
    exact h

theorem killFold_uses (cfg : PoolConfig) (now : Int) (y : Nat) (u : UseInfo) :
    ∀ (l : List Nat) (st : PoolState),
      lookupU (l.foldl (killStep cfg now) st).uses y = some u →
      lookupU st.uses y = some u := by
  intro l
  induction l with
  | nil =>
    intro st h
    exact h
  | cons x rest ih =>
    intro st h
    exact killStep_uses cfg now st x y u (ih _ h)

theorem killPhase_uses (cfg : PoolConfig) (st : PoolState) (now : Int) (y : Nat)
    (u : UseInfo) (h : lookupU (killPhase cfg st now).uses y = some u) :
    lookupU st.uses y = some u := by
  unfold killPhase at h
  by_cases hw : warnDelay cfg ≠ 0
  · rw [if_pos hw] at h
    exact killFold_uses cfg now y u st.used st h
  · rw [if_neg hw] at h
    exact h

theorem idleLoop_uses (cfg : PoolConfig) (now : Int) (y : Nat) (u : UseInfo) :
    ∀ (l : List Nat) (st : PoolState),
      lookupU (idleLoop cfg now l st).uses y = some u →
      lookupU st.uses y = some u := by
  intro l
  induction l with
  | nil =>
    intro st h
    exact h
  | cons x rest ih =>
    intro st h
    unfold idleLoop at h
    by_cases hfire : cfg.max_avail_delay ≤ now - (getU st.uses x).last_ret
    · rw [if_pos hfire] at h
      by_cases hstop :
          (todelAdd (Out { st with nrecycled := st.nrecycled + 1 } x) x).nobjs ≤
            cfg.min_size
      · rw [if_pos hstop] at h
        exact lookupU_delU_narrow st.uses x y u h
      · rw [if_neg hstop] at h
        exact lookupU_delU_narrow st.uses x y u (ih _ h)
    · rw [if_neg hfire] at h
      exact ih _ h

theorem idlePhase_uses (cfg : PoolConfig) (st : PoolState) (now : Int) (y : Nat)
    (u : UseInfo) (h : lookupU (idlePhase cfg st now).uses y = some u) :
    lookupU st.uses y = some u := by
  unfold idlePhase at h
  by_cases hg : cfg.max_avail_delay ≠ 0 ∧ cfg.min_size < st.nobjs
  · rw [if_pos hg] at h
    exact idleLoop_uses cfg now y u st.avail st h
  · rw [if_neg hg] at h
    exact h

theorem hkRound_uses (cfg : PoolConfig) (st : PoolState) (now : Int) (y : Nat)
    (u : UseInfo) (h : lookupU (_hkRound cfg st now).uses y = some u) :
    lookupU st.uses y = some u := by
  unfold _hkRound at h
  have h2 := idlePhase_uses cfg (killPhase cfg
    { st with hk_rounds := st.hk_rounds + 1 } now) now y u h
  have h3 := killPhase_uses cfg { st with hk_rounds := st.hk_rounds + 1 } now y u h2
  exact h3

theorem healthStep_uses (hres : Nat → Option Bool) (st : PoolState) (x y : Nat)
    (u : UseInfo) (h : lookupU (healthStep hres st x).uses y = some u) :
    lookupU st.uses y = some u := by
  unfold healthStep at h
  rcases hb : _borrow st x with _ | st1
  · rw [hb] at h
    exact h
  · rw [hb] at h
    obtain ⟨hx, hshape, _⟩ := borrow_shape st x st1 hb
    subst hshape
    rcases hro : hres x with _ | b
    · rw [hro] at h
      exact h
    · rw [hro] at h
      rcases b with _ | _
      · exact lookupU_delU_narrow st.uses x y u h
      · exact h

theorem healthFold_uses (hres : Nat → Option Bool) (y : Nat) (u : UseInfo) :
    ∀ (l : List Nat) (st : PoolState),
      lookupU (l.foldl (healthStep hres) st).uses y = some u →
      lookupU st.uses y = some u := by
  intro l
  induction l with
  | nil =>
    intro st h
    exact h
  | cons x rest ih =>
    intro st h
    exact healthStep_uses hres st x y u (ih _ h)

theorem health_check_uses (hres : Nat → Option Bool) (st : PoolState) (y : Nat)
    (u : UseInfo) (h : lookupU (_health_check hres st).uses y = some u) :
    lookupU st.uses y = some u := by
  unfold _health_check at h
  have h2 : lookupU (List.foldl (healthStep hres)
      { st with hc_rounds := st.hc_rounds + 1 }
      ({ st with hc_rounds := st.hc_rounds + 1 } : PoolState).avail).uses y =
      some u := h
  exact healthFold_uses hres y u
    ({ st with hc_rounds := st.hc_rounds + 1 } : PoolState).avail
    { st with hc_rounds := st.hc_rounds + 1 } h2

/-- C7: across every pool operation, a tracked object's `uses` counter
never decreases (`get` is the only writer and it increments); and on a
`ret` whose object has `uses ≥ max_use > 0`, the locked section moves
the object to pending-destruction and not to available, and the full
`ret` (which then drains pending-destruction and refills) never puts
it back into the available set. -/
theorem C7_wear_out (hooks : Hooks) (cfg : PoolConfig) (st st2 : PoolState)
    (o : Nat) (now : Int) (okf : Nat → Bool) (h : Inv cfg st) :
    (Step hooks cfg st st2 → ∀ x u1 u2, lookupU st.uses x = some u1 →
      lookupU st2.uses x = some u2 → u1.uses ≤ u2.uses) ∧
    (o ∈ st.used → cfg.max_use ≠ 0 → cfg.max_use ≤ (getU st.uses o).uses →
      o ∈ (retLocked cfg st o now).todel ∧
      o ∉ (retLocked cfg st o now).avail ∧
      o ∉ (ret hooks cfg st o now okf).avail) := by
  constructor
  · intro hstep x u1 u2 h1 h2
    have hx : x < st.ncreated := by
      obtain ⟨_, _, _, _, _, _, _, _, _, _, _, _, hUF⟩ := h
      exact hUF (x, u1) (lookupU_mem st.uses x u1 h1)
    cases hstep with
    | stepGet now2 okf2 t2 =>
      obtain ⟨_, hdisj⟩ := inv_get hooks cfg st now2 okf2 t2 h
      rcases hdisj with he | ⟨o2, he⟩ | he
      · rw [he, h1] at h2
        rw [Option.some.inj h2]
      · rw [he, lookupU_updU] at h2
        by_cases hxo : x = o2
        · rw [if_pos hxo, h1] at h2
          have hu := Option.some.inj h2
          rw [← hu]
          exact Nat.le_succ _
        · rw [if_neg hxo, h1] at h2
          rw [Option.some.inj h2]
      · rw [he, lookupU_updU] at h2
        by_cases hxo : x = st.ncreated
        · exact absurd hx (by omega)
        · rw [if_neg hxo] at h2
          have h3 : lookupU st.uses x = some u2 := by
            have h4 : (if st.ncreated = x then
                some (⟨0, now2, now2⟩ : UseInfo) else lookupU st.uses x) = some u2 := h2
            rw [if_neg (fun hh => hxo hh.symm)] at h4
            exact h4
          rw [h1] at h3
          rw [Option.some.inj h3]
    | stepRet o2 now2 okf2 =>
      obtain ⟨hRI, hRuses, hRnc⟩ := inv_retLocked cfg st o2 now2 h
      have hIm : Inv cfg (_empty (retLocked cfg st o2 now2)) := inv_empty cfg _ hRI
      have hncm : (_empty (retLocked cfg st o2 now2)).ncreated = st.ncreated := by
        rw [empty_ncreated, hRnc]
      have hpres := (inv_fill hooks cfg (_empty (retLocked cfg st o2 now2)) now2 okf2
        hIm).2.2.2.2.2.2.1
      rw [ret_eq] at h2
      have h3 := hpres x (by rw [hncm]; exact hx)
      rw [h3] at h2
      rw [empty_uses] at h2
      obtain ⟨u1b, h1b, hub⟩ := hRuses x u2 h2
      rw [h1] at h1b
      rw [← Option.some.inj h1b] at hub
      omega
    | stepHk now2 =>
      have h3 := hkRound_uses cfg st now2 x u2 h2
      rw [h1] at h3
      rw [Option.some.inj h3]
    | stepHealth hres =>
      have h3 := health_check_uses hres st x u2 h2
      rw [h1] at h3
      rw [Option.some.inj h3]
    | stepEmpty =>
      have h3 : lookupU st.uses x = some u2 := by
        rw [← empty_uses st]
        exact h2
      rw [h1] at h3
      rw [Option.some.inj h3]
    | stepFill now2 okf2 =>
      have hpres := (inv_fill hooks cfg st now2 okf2 h).2.2.2.2.2.2.1
      rw [hpres x hx, h1] at h2
      rw [Option.some.inj h2]
    | stepBorrow o2 st3 hb =>
      obtain ⟨_, hshape, _⟩ := borrow_shape st o2 st2 hb
      rw [hshape] at h2
      have h3 : lookupU st.uses x = some u2 := h2
      rw [h1] at h3
      rw [Option.some.inj h3]
    | stepReturn o2 ho2 =>
      have h3 : lookupU st.uses x = some u2 := h2
      rw [h1] at h3
      rw [Option.some.inj h3]
  · intro ho hmu hge
    have hw : cfg.max_use ≠ 0 ∧ cfg.max_use ≤ (getU st.uses o).uses := ⟨hmu, hge⟩
    obtain ⟨hA, hU, hAU, hAT, hUT, hC, hT, hS, hL, hFA, hFU, hFT, hUF⟩ := h
    have hnota : o ∉ st.avail := fun ha => hAU o ha ho
    have hto : o ∈ (retLocked cfg st o now).todel := by
      rw [retLocked_wear cfg st o now ho hw]
      show o ∈ (todelAdd (Out { st with nwornout := st.nwornout + 1 } o) o).todel
      exact mem_todelAdd_self _ o
    have hna : o ∉ (retLocked cfg st o now).avail := by
      rw [retLocked_wear cfg st o now ho hw]
      show o ∉ (st.avail.erase o)
      intro hm
      exact hnota (List.mem_of_mem_erase hm)
    refine ⟨hto, hna, ?_⟩
    rw [ret_eq]
    have hRI : Inv cfg (retLocked cfg st o now) :=
      (inv_retLocked cfg st o now
        ⟨hA, hU, hAU, hAT, hUT, hC, hT, hS, hL, hFA, hFU, hFT, hUF⟩).1
    have hRnc : (retLocked cfg st o now).ncreated = st.ncreated :=
      (inv_retLocked cfg st o now
        ⟨hA, hU, hAU, hAT, hUT, hC, hT, hS, hL, hFA, hFU, hFT, hUF⟩).2.2
    have hIm : Inv cfg (_empty (retLocked cfg st o now)) := inv_empty cfg _ hRI
    have havm : o ∉ (_empty (retLocked cfg st o now)).avail := by
      rw [empty_avail]
      exact hna
    have hxm : o < (_empty (retLocked cfg st o now)).ncreated := by
      rw [empty_ncreated, hRnc]
      exact hFU o ho
    exact (inv_fill hooks cfg (_empty (retLocked cfg st o now)) now okf
      hIm).2.2.2.2.2.2.2 o hxm havm

def cfgC7 : PoolConfig := ⟨0, 0, none, 1, 0, 0, 0⟩

def stC7 : PoolState :=
  ⟨[1], [0], [], [(0, ⟨1, 0, 0⟩), (1, ⟨1, 0, 0⟩)],
    2, 2, 2, 0, 2, 0, 0, 0, 0, 0, 0, 0, 0, 0, 0, none⟩

theorem C7_wear_out_witness :
    (⟨1, 0, 0⟩ : UseInfo).uses ≤ (⟨1, 0, 0⟩ : UseInfo).uses ∧
    0 ∈ (retLocked cfgC7 stC7 0 5).todel ∧
    0 ∉ (retLocked cfgC7 stC7 0 5).avail ∧
    0 ∉ (ret hooks0 cfgC7 stC7 0 5 okAll).avail := by
  have h7 := C7_wear_out hooks0 cfgC7 stC7 (get hooks0 stC7 5 okAll none).1 0 5 okAll
    (by unfold Inv; decide)
  exact ⟨h7.1 (Step.stepGet stC7 5 okAll none) 0 ⟨1, 0, 0⟩ ⟨1, 0, 0⟩
      (by decide) (by decide),
    h7.2 (by decide) (by decide) (by decide)⟩

/-! ## C8 -/

theorem mem_todelAdd_of_mem (st : PoolState) (x o : Nat) (h : o ∈ st.todel) :
    o ∈ (todelAdd st x).todel := by
  by_cases hx : x ∈ st.todel
  · simp only [todelAdd, if_pos hx]
    exact h
  · simp only [todelAdd, if_neg hx]
    exact List.mem_cons_of_mem _ h

theorem killStep_keeps (cfg : PoolConfig) (now : Int) (st : PoolState) (x o : Nat)
    (ht : o ∈ st.todel) (hu : o ∉ st.used) (ha : o ∉ st.avail) :
    o ∈ (killStep cfg now st x).todel ∧ o ∉ (killStep cfg now st x).used ∧
    o ∉ (killStep cfg now st x).avail := by
  unfold killStep
  by_cases hfire : cfg.max_using_delay_kill ≠ 0 ∧
      cfg.max_using_delay_kill ≤ now - (getU st.uses x).last_get
  · rw [if_pos hfire]
    refine ⟨?_, ?_, ?_⟩
    · show o ∈ (todelAdd (Out { st with nkilled := st.nkilled + 1 } x) x).todel
      exact mem_todelAdd_of_mem _ x o ht
    · show o ∉ st.used.erase x
      exact fun hm => hu (List.mem_of_mem_erase hm)
    · show o ∉ st.avail.erase x
      exact fun hm => ha (List.mem_of_mem_erase hm)
  · rw [if_neg hfire]
    exact ⟨ht, hu, ha⟩

theorem killFold_keeps (cfg : PoolConfig) (now : Int) (o : Nat) :
    ∀ (l : List Nat) (st : PoolState), o ∈ st.todel → o ∉ st.used → o ∉ st.avail →
      o ∈ (l.foldl (killStep cfg now) st).todel ∧
      o ∉ (l.foldl (killStep cfg now) st).used ∧
      o ∉ (l.foldl (killStep cfg now) st).avail := by
  intro l
  induction l with
  | nil =>
    intro st ht hu ha
    exact ⟨ht, hu, ha⟩
  | cons x rest ih =>
    intro st ht hu ha
    rw [List.foldl_cons]
    obtain ⟨ht1, hu1, ha1⟩ := killStep_keeps cfg now st x o ht hu ha
    exact ih _ ht1 hu1 ha1

theorem killFold_hits (cfg : PoolConfig) (now : Int) (o : Nat)
    (hk : cfg.max_using_delay_kill ≠ 0) :
    ∀ (l : List Nat) (st : PoolState), l.Nodup → o ∈ l →
      o ∈ st.used → st.used.Nodup → o ∉ st.avail →
      cfg.max_using_delay_kill ≤ now - (getU st.uses o).last_get →
      o ∈ (l.foldl (killStep cfg now) st).todel ∧
      o ∉ (l.foldl (killStep cfg now) st).used ∧
      o ∉ (l.foldl (killStep cfg now) st).avail := by
  intro l
  induction l with
  | nil =>
    intro st _ hol
    exact absurd hol (List.not_mem_nil o)
  | cons x rest ih =>
    intro st hnd hol hu hUnd ha hover
    obtain ⟨hnx, hndr⟩ := List.nodup_cons.mp hnd
    rw [List.foldl_cons]
    by_cases hxo : x = o
    · subst hxo
      have hfire : cfg.max_using_delay_kill ≠ 0 ∧
          cfg.max_using_delay_kill ≤ now - (getU st.uses x).last_get := ⟨hk, hover⟩
      have hks : killStep cfg now st x =
          { todelAdd (Out { st with nkilled := st.nkilled + 1 } x) x with
            semTokens :=
              (todelAdd (Out { st with nkilled := st.nkilled + 1 } x) x).semTokens.map
                (fun v => v + 1) } := by
        unfold killStep
        rw [if_pos hfire]
      rw [hks]
      refine killFold_keeps cfg now x rest _ ?_ ?_ ?_
      · show x ∈ (todelAdd (Out { st with nkilled := st.nkilled + 1 } x) x).todel
        exact mem_todelAdd_self _ x
      · show x ∉ st.used.erase x
        intro hm
        exact ((hUnd.mem_erase_iff).mp hm).1 rfl
      · show x ∉ st.avail.erase x
        exact fun hm => ha (List.mem_of_mem_erase hm)
    · have hxo2 : o ≠ x := fun he => hxo he.symm
      have hol2 : o ∈ rest := by
        rcases List.mem_cons.mp hol with he | hm
        · exact absurd he.symm hxo
        · exact hm
      by_cases hfire : cfg.max_using_delay_kill ≠ 0 ∧
          cfg.max_using_delay_kill ≤ now - (getU st.uses x).last_get
      · have hks : killStep cfg now st x =
            { todelAdd (Out { st with nkilled := st.nkilled + 1 } x) x with
              semTokens :=
                (todelAdd (Out { st with
                  nkilled := st.nkilled + 1 } x) x).semTokens.map
                  (fun v => v + 1) } := by
          unfold killStep
          rw [if_pos hfire]
        rw [hks]
        refine ih _ hndr hol2 ?_ ?_ ?_ ?_
        · show o ∈ st.used.erase x
          exact (List.mem_erase_of_ne hxo2).mpr hu
        · show (st.used.erase x).Nodup
          exact hUnd.erase x
        · show o ∉ st.avail.erase x
          exact fun hm => ha (List.mem_of_mem_erase hm)
        · show cfg.max_using_delay_kill ≤
            now - (getU (delU st.uses x) o).last_get
          have hlk : lookupU (delU st.uses x) o = lookupU st.uses o := by
            rw [lookupU_delU, if_neg hxo2]
          unfold getU
          rw [hlk]
          exact hover
      · have hks : killStep cfg now st x = st := by
          unfold killStep
          rw [if_neg hfire]
        rw [hks]
        exact ih _ hndr hol2 hu hUnd ha hover

theorem idleLoop_keeps (cfg : PoolConfig) (now : Int) (o : Nat) :
    ∀ (l : List Nat) (st : PoolState), o ∈ st.todel → o ∉ st.used → o ∉ st.avail →
      o ∈ (idleLoop cfg now l st).todel ∧ o ∉ (idleLoop cfg now l st).used ∧
      o ∉ (idleLoop cfg now l st).avail := by
  intro l
  induction l with
  | nil =>
    intro st ht hu ha
    exact ⟨ht, hu, ha⟩
  | cons x rest ih =>
    intro st ht hu ha
    unfold idleLoop
    have ht1 : o ∈ (todelAdd (Out { st with nrecycled := st.nrecycled + 1 } x) x).todel :=
      mem_todelAdd_of_mem _ x o ht
    have hu1 : o ∉ (todelAdd (Out { st with nrecycled := st.nrecycled + 1 } x) x).used := by
      show o ∉ st.used.erase x
      exact fun hm => hu (List.mem_of_mem_erase hm)
    have ha1 : o ∉ (todelAdd (Out { st with nrecycled := st.nrecycled + 1 } x) x).avail := by
      show o ∉ st.avail.erase x
      exact fun hm => ha (List.mem_of_mem_erase hm)
    by_cases hfire : cfg.max_avail_delay ≤ now - (getU st.uses x).last_ret
    · rw [if_pos hfire]
      by_cases hstop :
          (todelAdd (Out { st with nrecycled := st.nrecycled + 1 } x) x).nobjs ≤
            cfg.min_size
      · rw [if_pos hstop]
        exact ⟨ht1, hu1, ha1⟩
      · rw [if_neg hstop]
        exact ih _ ht1 hu1 ha1
    · rw [if_neg hfire]
      exact ih _ ht hu ha

theorem idlePhase_keeps (cfg : PoolConfig) (st : PoolState) (now : Int) (o : Nat)
    (ht : o ∈ st.todel) (hu : o ∉ st.used) (ha : o ∉ st.avail) :
    o ∈ (idlePhase cfg st now).todel ∧ o ∉ (idlePhase cfg st now).used ∧
    o ∉ (idlePhase cfg st now).avail := by
  unfold idlePhase
  by_cases hg : cfg.max_avail_delay ≠ 0 ∧ cfg.min_size < st.nobjs
  · rw [if_pos hg]
    exact idleLoop_keeps cfg now o st.avail st ht hu ha
  · rw [if_neg hg]
    exact ⟨ht, hu, ha⟩

/-- C8: an in-use object held at least `max_borrow_kill` is moved to
pending-destruction by the borrow-age sweep while still logically
borrowed, its token is released on the borrower's behalf (captured by
invariant preservation: the semaphore again holds `max_size` minus the
remaining in-use count), and the borrower's later `ret` finds the
object not in-use: its locked section is an exact no-op (no second
token release, no second live-count decrement), the call reducing to
the routine `_empty`/`_fill` tail. -/
theorem C8_forced_reclaim (hooks : Hooks) (cfg : PoolConfig) (st : PoolState)
    (o : Nat) (now now2 : Int) (okf : Nat → Bool)
    (h : Inv cfg st) (ho : o ∈ st.used)
    (hk : cfg.max_using_delay_kill ≠ 0) (hw : warnDelay cfg ≠ 0)
    (hover : cfg.max_using_delay_kill ≤ now - (getU st.uses o).last_get) :
    o ∈ (_hkRound cfg st now).todel ∧
    o ∉ (_hkRound cfg st now).used ∧
    o ∉ (_hkRound cfg st now).avail ∧
    Inv cfg (_hkRound cfg st now) ∧
    retLocked cfg (_hkRound cfg st now) o now2 = _hkRound cfg st now ∧
    ret hooks cfg (_hkRound cfg st now) o now2 okf =
      _fill hooks cfg (_empty (_hkRound cfg st now)) now2 okf := by
  have hU : st.used.Nodup := h.2.1
  have hnota : o ∉ st.avail := fun ha => h.2.2.1 o ha ho
  have hkp : killPhase cfg { st with hk_rounds := st.hk_rounds + 1 } now =
      st.used.foldl (killStep cfg now) { st with hk_rounds := st.hk_rounds + 1 } := by
    unfold killPhase
    rw [if_pos hw]
  have htrip := killFold_hits cfg now o hk st.used
    { st with hk_rounds := st.hk_rounds + 1 } hU ho ho hU hnota hover
  rw [← hkp] at htrip
  have htrip2 := idlePhase_keeps cfg
    (killPhase cfg { st with hk_rounds := st.hk_rounds + 1 } now) now o
    htrip.1 htrip.2.1 htrip.2.2
  have hhk : _hkRound cfg st now =
      idlePhase cfg (killPhase cfg { st with hk_rounds := st.hk_rounds + 1 } now) now :=
    rfl
  rw [hhk]
  refine ⟨htrip2.1, htrip2.2.1, htrip2.2.2, ?_, ?_, ?_⟩
  · rw [← hhk]
    exact inv_hkRound cfg st now h
  · exact retLocked_not_used cfg _ o now2 htrip2.2.1
  · rw [ret_eq, retLocked_not_used cfg _ o now2 htrip2.2.1]

def cfgC8 : PoolConfig := ⟨1, 0, none, 0, 0, 0, 5⟩

def c8a : PoolState := mkPool hooks0 cfgC8 0 okAll

def c8b : PoolState := (get hooks0 c8a 0 okAll none).1

theorem C8_forced_reclaim_witness :
    0 ∈ (_hkRound cfgC8 c8b 10).todel ∧
    0 ∉ (_hkRound cfgC8 c8b 10).used ∧
    0 ∉ (_hkRound cfgC8 c8b 10).avail ∧
    Inv cfgC8 (_hkRound cfgC8 c8b 10) ∧
    retLocked cfgC8 (_hkRound cfgC8 c8b 10) 0 12 = _hkRound cfgC8 c8b 10 ∧
    ret hooks0 cfgC8 (_hkRound cfgC8 c8b 10) 0 12 okAll =
      _fill hooks0 cfgC8 (_empty (_hkRound cfgC8 c8b 10)) 12 okAll :=
  C8_forced_reclaim hooks0 cfgC8 c8b 0 10 12 okAll (by unfold Inv; decide)
    (by decide) (by decide) (by decide) (by decide)

/-! ## C9 -/

theorem not_mem_todelAdd (st : PoolState) (x o : Nat) (hne : o ≠ x)
    (h : o ∉ st.todel) : o ∉ (todelAdd st x).todel := by
  by_cases hx : x ∈ st.todel
  · simp only [todelAdd, if_pos hx]
    exact h
  · simp only [todelAdd, if_neg hx]
    intro hm
    rcases List.mem_cons.mp hm with he | hm2
    · exact hne he
    · exact h hm2

theorem map_sub_add (z : Option Nat) (hz : z = none ∨ ∃ v, z = some (v + 1)) :
    (z.map (fun w => w - 1)).map (fun w => w + 1) = z := by
  rcases hz with hz | ⟨v, hz⟩ <;> rw [hz] <;> rfl

/-- `_borrow` succeeds on an available object whenever the semaphore is
absent or holds a free token. -/
theorem borrow_of_avail (st : PoolState) (o : Nat) (ho : o ∈ st.avail)
    (hs : st.semTokens = none ∨ ∃ v, st.semTokens = some (v + 1)) :
    _borrow st o = some { st with
      semTokens := st.semTokens.map (fun w => w - 1)
      avail := st.avail.erase o
      used := o :: st.used
      nborrows := st.nborrows + 1 } := by
  rcases hs with hs | ⟨v, hs⟩
  · unfold _borrow
    rw [hs]
    show (if o ∈ st.avail then
        some { st with
                semTokens := none
                avail := st.avail.erase o
                used := o :: st.used
                nborrows := st.nborrows + 1 }
      else none) = _
    rw [if_pos ho]
    rfl
  · unfold _borrow
    rw [hs]
    show (if o ∈ st.avail then
        some { st with
                semTokens := some v
                avail := st.avail.erase o
                used := o :: st.used
                nborrows := st.nborrows + 1 }
      else none) = _
    rw [if_pos ho]
    rfl

/-- One health-check iteration never changes the semaphore's token
count: the transient borrow's take is undone by the return. -/
theorem healthStep_sem (hres : Nat → Option Bool) (st : PoolState) (x : Nat) :
    (healthStep hres st x).semTokens = st.semTokens := by
  unfold healthStep
  rcases hb : _borrow st x with _ | st1
  · rfl
  · obtain ⟨hxa, hshape, hpos⟩ := borrow_shape st x st1 hb
    rcases hh : hres x with _ | b
    · show st1.semTokens.map (fun w => w + 1) = st.semTokens
      rw [hshape]
      exact map_sub_add st.semTokens hpos
    · cases b
      · show st1.semTokens.map (fun w => w + 1) = st.semTokens
        rw [hshape]
        exact map_sub_add st.semTokens hpos
      · show st1.semTokens.map (fun w => w + 1) = st.semTokens
        rw [hshape]
        exact map_sub_add st.semTokens hpos

/-- A health-check iteration on another object keeps o available, keeps
it out of pending-destruction, and never decreases `hc_errors`. -/
theorem healthStep_keeps (hres : Nat → Option Bool) (st : PoolState) (x o : Nat)
    (hne : o ≠ x) (ha : o ∈ st.avail) (ht : o ∉ st.todel) :
    o ∈ (healthStep hres st x).avail ∧ o ∉ (healthStep hres st x).todel ∧
    st.hc_errors ≤ (healthStep hres st x).hc_errors := by
  unfold healthStep
  rcases hb : _borrow st x with _ | st1
  · exact ⟨ha, ht, le_refl _⟩
  · obtain ⟨hxa, hshape, hpos⟩ := borrow_shape st x st1 hb
    have ha1 : o ∈ st1.avail := by
      rw [hshape]
      exact (List.mem_erase_of_ne hne).mpr ha
    have ht1 : o ∉ st1.todel := by
      rw [hshape]
      exact ht
    have hce : st1.hc_errors = st.hc_errors := by rw [hshape]
    rcases hh : hres x with _ | b
    · refine ⟨?_, ?_, ?_⟩
      · show o ∈ x :: st1.avail
        exact List.mem_cons_of_mem x ha1
      · show o ∉ st1.todel
        exact ht1
      · show st.hc_errors ≤ st1.hc_errors + 1
        rw [hce]
        exact Nat.le_succ _
    · cases b
      · refine ⟨?_, ?_, ?_⟩
        · show o ∈ (x :: st1.avail).erase x
          exact (List.mem_erase_of_ne hne).mpr (List.mem_cons_of_mem x ha1)
        · exact not_mem_todelAdd _ x o hne ht1
        · show st.hc_errors ≤ st1.hc_errors
          exact le_of_eq hce.symm
      · refine ⟨?_, ?_, ?_⟩
        · show o ∈ x :: st1.avail
          exact List.mem_cons_of_mem x ha1
        · show o ∉ st1.todel
          exact ht1
        · show st.hc_errors ≤ st1.hc_errors
          exact le_of_eq hce.symm

/-- The health-check iteration on o itself, when the hook raises and a
token is free: o is borrowed, the error is counted, o is treated as
healthy — returned to available, never moved to pending-destruction —
and the token count is restored. -/
theorem healthStep_raise (hres : Nat → Option Bool) (st : PoolState) (o : Nat)
    (ha : o ∈ st.avail) (hh : hres o = none)
    (hs : st.semTokens = none ∨ ∃ v, st.semTokens = some (v + 1)) :
    o ∈ (healthStep hres st o).avail ∧
    (healthStep hres st o).todel = st.todel ∧
    (healthStep hres st o).hc_errors = st.hc_errors + 1 ∧
    (healthStep hres st o).semTokens = st.semTokens := by
  have hb := borrow_of_avail st o ha hs
  unfold healthStep
  rw [hb, hh]
  refine ⟨?_, rfl, rfl, ?_⟩
  · show o ∈ o :: st.avail.erase o
    exact List.mem_cons_self o _
  · show (st.semTokens.map (fun w => w - 1)).map (fun w => w + 1) = st.semTokens
    exact map_sub_add st.semTokens hs

theorem healthFold_keeps (hres : Nat → Option Bool) (o : Nat) :
    ∀ (l : List Nat) (st : PoolState), o ∉ l → o ∈ st.avail → o ∉ st.todel →
      o ∈ (l.foldl (healthStep hres) st).avail ∧
      o ∉ (l.foldl (healthStep hres) st).todel ∧
      st.hc_errors ≤ (l.foldl (healthStep hres) st).hc_errors := by
  intro l
  induction l with
  | nil =>
    intro st _ ha ht
    exact ⟨ha, ht, le_refl _⟩
  | cons x rest ih =>
    intro st hnl ha ht
    have hne : o ≠ x := fun he => hnl (List.mem_cons.mpr (Or.inl he))
    have hor : o ∉ rest := fun hm => hnl (List.mem_cons.mpr (Or.inr hm))
    rw [List.foldl_cons]
    obtain ⟨ha1, ht1, hc1⟩ := healthStep_keeps hres st x o hne ha ht
    obtain ⟨ha2, ht2, hc2⟩ := ih (healthStep hres st x) hor ha1 ht1
    exact ⟨ha2, ht2, le_trans hc1 hc2⟩

theorem healthFold_raise (hres : Nat → Option Bool) (o : Nat) (hh : hres o = none) :
    ∀ (l : List Nat) (st : PoolState), l.Nodup → o ∈ l → o ∈ st.avail → o ∉ st.todel →
      (st.semTokens = none ∨ ∃ v, st.semTokens = some (v + 1)) →
      o ∈ (l.foldl (healthStep hres) st).avail ∧
      o ∉ (l.foldl (healthStep hres) st).todel ∧
      st.hc_errors + 1 ≤ (l.foldl (healthStep hres) st).hc_errors := by
  intro l
  induction l with
  | nil =>
    intro st _ hol
    exact absurd hol (List.not_mem_nil o)
  | cons x rest ih =>
    intro st hnd hol ha ht hs
    obtain ⟨hnx, hndr⟩ := List.nodup_cons.mp hnd
    rw [List.foldl_cons]
    by_cases hxo : x = o
    · subst hxo
      obtain ⟨ha1, ht1e, hc1, _⟩ := healthStep_raise hres st x ha hh hs
      have ht1 : x ∉ (healthStep hres st x).todel := by
        rw [ht1e]
        exact ht
      obtain ⟨ha2, ht2, hc2⟩ :=
        healthFold_keeps hres x rest (healthStep hres st x) hnx ha1 ht1
      refine ⟨ha2, ht2, ?_⟩
      rw [← hc1]
      exact hc2
    · have hne : o ≠ x := fun he => hxo he.symm
      have hol2 : o ∈ rest := by
        rcases List.mem_cons.mp hol with he | hm
        · exact absurd he.symm hxo
        · exact hm
      obtain ⟨ha1, ht1, hc1⟩ := healthStep_keeps hres st x o hne ha ht
      have hs1 : (healthStep hres st x).semTokens = none ∨
          ∃ v, (healthStep hres st x).semTokens = some (v + 1) := by
        rw [healthStep_sem]
        exact hs
      obtain ⟨ha2, ht2, hc2⟩ := ih (healthStep hres st x) hndr hol2 ha1 ht1 hs1
      exact ⟨ha2, ht2, le_trans (Nat.add_le_add_right hc1 1) hc2⟩

/-- C9: during the health sweep, when the `is_healthy` hook raises on a
transiently borrowed available object (a capacity token being free, so
the transient borrow happens), the error is counted as a health-check
error and the object is treated as still healthy: after the sweep it is
back in the available set and was never moved to pending-destruction. -/
theorem C9_health_error_policy (cfg : PoolConfig) (st : PoolState) (o : Nat)
    (hres : Nat → Option Bool)
    (h : Inv cfg st) (ha : o ∈ st.avail) (hh : hres o = none)
    (hs : st.semTokens = none ∨ ∃ v, st.semTokens = some (v + 1)) :
    o ∈ (_health_check hres st).avail ∧
    o ∉ (_health_check hres st).todel ∧
    st.hc_errors + 1 ≤ (_health_check hres st).hc_errors := by
  unfold _health_check
  exact healthFold_raise hres o hh st.avail
    { st with hc_rounds := st.hc_rounds + 1 } h.1 ha ha (h.2.2.2.1 o ha) hs

def cfgC9 : PoolConfig := ⟨0, 1, none, 0, 0, 0, 0⟩

def stC9 : PoolState :=
  ⟨[0], [], [], [(0, ⟨1, 0, 0⟩)], 1, 1, 0, 0, 0, 0, 0, 0, 0, 0, 0, 0, 0, 0, 0, none⟩

theorem C9_health_error_policy_witness :
    0 ∈ (_health_check (fun _ => none) stC9).avail ∧
    0 ∉ (_health_check (fun _ => none) stC9).todel ∧
    stC9.hc_errors + 1 ≤ (_health_check (fun _ => none) stC9).hc_errors :=
  C9_health_error_policy cfgC9 stC9 0 (fun _ => none) (by unfold Inv; decide)
    (by decide) rfl (Or.inl rfl)

end PPP
